import Mathlib

/-!
Verification of the open-addressing hash table core of the cstd library:
a shallow embedding of `src/CHashMap.c` and `src/CHashSet.c` together with
proofs and refutations of the specified properties.

Modelling conventions:
* C pointers are natural numbers: `0` models `NULL` and `2 ^ 64 - 1` models
  the tombstone sentinel `DELETED = (void *)-1` on a 64-bit machine.  Any
  other number is a valid pointer.
* The `cmp` and `hash` callbacks stored in the C structs are immutable after
  `init`, so they are passed as ambient parameters instead of struct fields;
  this keeps table states first-order and decidably comparable.
* Destructor callbacks only release memory outside the table, so they do not
  appear in the state.
* `malloc`/`calloc` are assumed to succeed (the spec constrains the
  non-allocation-failure behaviour); consequently the `ALLOC_FAILURE` paths
  of the C code are not exercised by the model.
* Every unbounded C `while` loop becomes a fuel-indexed scan, called with
  fuel equal to the table capacity.  Since linear probing with stride 1
  visits every slot within `capacity` steps, the scan returns `none`
  exactly when the C loop cycles forever; callers surface this as the
  `div` (divergence) outcome.
* `double` arithmetic (`load_factor`, the `0.75` threshold test and the
  `ceil(capacity * 1.5)` computation) is modelled with exact rational /
  natural arithmetic; a division by zero yields `none`, standing for the
  non-finite IEEE result (NaN when the numerator is 0, infinity otherwise).
  Rounding of the IEEE quotient is not modelled; it is exact for all the
  magnitudes the claims exercise.
-/

namespace CStd

/-- Pointers are modelled as natural numbers; `0` is `NULL`. -/
abbrev Ptr := Nat

/-- The `NULL` pointer. -/
def NULLPTR : Ptr := 0

/-- The tombstone sentinel `#define DELETED ((void *)-1)` on a 64-bit machine. -/
def DELETED : Ptr := 2 ^ 64 - 1

/-- A key is "occupied" when it is neither `NULL` nor the tombstone
sentinel, mirroring `entry->key && entry->key != DELETED`. -/
def occP (p : Ptr) : Prop := p ≠ NULLPTR ∧ p ≠ DELETED

instance (p : Ptr) : Decidable (occP p) := by
  unfold occP; infer_instance

/-- Boolean form of `occP`, used for counting occupied slots. -/
def occB (p : Ptr) : Bool := decide (occP p)

/-! ### Error codes (from `CHashMap.h` / `CHashSet.h`) -/

def CHASHMAP_NULL_VAL : Int := -3
def CHASHMAP_NULL_MAP : Int := -2
def CHASHMAP_NOT_FOUND : Int := -1
def CHASHMAP_SUCCESS : Int := 0
def CHASHMAP_ALLOC_FAILURE : Int := 1
def CHASHMAP_DEFAULT_CAPACITY : Nat := 64

def CHASHSET_NULL_KEY : Int := -4
def CHASHSET_NOT_FOUND : Int := -3
def CHASHSET_NULL_SET : Int := -2
def CHASHSET_SUCCESS : Int := 0
def CHASHSET_ALLOC_FAILURE : Int := 1
def CHASHSET_DEFAULT_CAPACITY : Nat := 32

/-! ### States -/

/-- `struct CHashMapEntry { void *key; void *value; }`. -/
structure HEntry where
  key : Ptr
  value : Ptr
deriving DecidableEq

/-- The all-`NULL` entry produced by `calloc`. -/
def dfltE : HEntry := ⟨NULLPTR, NULLPTR⟩

/-- `struct _CHashMap` (the `cmp`/`hash` callbacks, fixed at `init`, are
ambient parameters of the operations; destructors are not modelled). -/
structure CHashMap where
  entries : List HEntry
  size : Nat
  capacity : Nat
deriving DecidableEq

/-- `struct _CHashSet` (payload is the key only). -/
structure CHashSet where
  entries : List Ptr
  size : Nat
  capacity : Nat
  deleted_count : Nat
deriving DecidableEq

/-- Key stored at slot `i` of a map. -/
def keyAtM (m : CHashMap) (i : Nat) : Ptr := (m.entries.getD i dfltE).key

/-- Value stored at slot `i` of a map. -/
def valAtM (m : CHashMap) (i : Nat) : Ptr := (m.entries.getD i dfltE).value

/-- Key stored at slot `i` of a set. -/
def keyAtS (s : CHashSet) (i : Nat) : Ptr := s.entries.getD i NULLPTR

/-- Number of occupied slots of a list of entries, given a key projection. -/
def occCount {α : Type} (keyOf : α → Ptr) (t : List α) : Nat :=
  t.countP (fun e => occB (keyOf e))

/-! ### Outcomes

An operation returning `int` and possibly mutating the table yields
`MRes`: a code together with the table afterwards, or one of the two
abnormal outcomes the C code can exhibit. -/

/-- Result of a C function returning an `int` code, paired with the state
of the table after the call.  `div` is an infinite probe loop, `ub` is
undefined behaviour (modulo by zero / dereferencing `NULL`). -/
inductive MRes (α : Type) where
  | ok (code : Int) (st : α)
  | div
  | ub
deriving DecidableEq

/-- Result of `CHashMap_get`, which returns a `CResult *`: `NULL` for null
arguments, a success result wrapping the value, or an error result with a
code. -/
inductive GetRes where
  | nullret
  | found (v : Ptr)
  | errc (code : Int)
  | div
  | ub
deriving DecidableEq

/-- Result of a non-mutating `int` function (`CHashSet_contains`). -/
inductive IRes where
  | code (c : Int)
  | div
  | ub
deriving DecidableEq

/-! ### double arithmetic -/

/-- IEEE division of two nonnegative finite doubles, exactly: `none` is the
non-finite result of dividing by zero (NaN for `0/0`, `+inf` otherwise). -/
def fdiv (a b : ℚ) : Option ℚ := if b = 0 then none else some (a / b)

/-- `CHashMap_load_factor`: `map ? ((double)map->size / map->capacity) : 0.0`. -/
def CHashMap_load_factor : Option CHashMap → Option ℚ
  | none => some 0
  | some m => fdiv (m.size : ℚ) (m.capacity : ℚ)

/-- `CHashSet_load_factor`: `set ? ((double)set->size / set->capacity) : 0.0`. -/
def CHashSet_load_factor : Option CHashSet → Option ℚ
  | none => some 0
  | some s => fdiv (s.size : ℚ) (s.capacity : ℚ)

/-- The test `CHashMap_load_factor(map) > LOAD_FACTOR_THRESHOLD` inside
`CHashMap_insert`, in kernel-computable integer arithmetic:
`size / capacity > 3/4` iff `3 * capacity < 4 * size` for positive
capacity, `NaN > 0.75` is false and `+inf > 0.75` is true for capacity 0.
`lfGtM_eq` below proves this equal to the test phrased with
`CHashMap_load_factor`. -/
def lfGtM (m : CHashMap) : Bool :=
  if m.capacity = 0 then decide (m.size ≠ 0)
  else decide (3 * m.capacity < 4 * m.size)

/-- The test `CHashSet_load_factor(set) > LOAD_FACTOR_THRESHOLD` inside
`CHashSet_add` (see `lfGtM`). -/
def lfGtS (s : CHashSet) : Bool :=
  if s.capacity = 0 then decide (s.size ≠ 0)
  else decide (3 * s.capacity < 4 * s.size)

/-- `__ceil(capacity * 1.5)`: exact natural ceiling of `3 * c / 2`. -/
def ceilHalfTriple (c : Nat) : Nat := (3 * c + 1) / 2

/-! ### Probe scans

Each unbounded `while` loop of the C code, as a fuel-indexed function.
`none` = the loop never exits. -/

/-- The insert-side scan
`while (entries[index].key && entries[index].key != DELETED) { if (cmp(entries[index].key, key) == 0) ...; index = (index + 1) % capacity; }`.
Returns `(true, i)` when it stops on a matching occupied slot and
`(false, i)` when it stops on an empty or tombstone slot. -/
def insScan (keyAt : Nat → Ptr) (cmp : Ptr → Ptr → Int) (cap kk : Nat) :
    Nat → Nat → Option (Bool × Nat)
  | 0, _ => none
  | fuel + 1, idx =>
    if occP (keyAt idx) then
      if cmp (keyAt idx) kk = 0 then some (true, idx)
      else insScan keyAt cmp cap kk fuel ((idx + 1) % cap)
    else some (false, idx)

/-- The lookup-side scan
`while (entries[index].key) { if (entries[index].key != DELETED && cmp(entries[index].key, key) == 0) ...; index = (index + 1) % capacity; }`.
Returns `some (some i)` on a match, `some none` on reaching an empty slot. -/
def lookScan (keyAt : Nat → Ptr) (cmp : Ptr → Ptr → Int) (cap kk : Nat) :
    Nat → Nat → Option (Option Nat)
  | 0, _ => none
  | fuel + 1, idx =>
    if keyAt idx = NULLPTR then some none
    else if keyAt idx ≠ DELETED ∧ cmp (keyAt idx) kk = 0 then some (some idx)
    else lookScan keyAt cmp cap kk fuel ((idx + 1) % cap)

/-- The resize-side scan `while (new_entries[new_index].key != NULL)`. -/
def empScan (keyAt : Nat → Ptr) (cap : Nat) : Nat → Nat → Option Nat
  | 0, _ => none
  | fuel + 1, idx =>
    if keyAt idx = NULLPTR then some idx
    else empScan keyAt cap fuel ((idx + 1) % cap)

/-- The rehashing loop shared by `CHashMap_resize` and `CHashSet_resize`:
every occupied old entry is re-homed at the first empty slot of the new
array (which holds no tombstones). -/
def rehashG {α : Type} (keyOf : α → Ptr) (dflt : α) (hash : Ptr → Nat)
    (ncap : Nat) : List α → List α → Option (List α)
  | [], acc => some acc
  | e :: rest, acc =>
    if occP (keyOf e) then
      match empScan (fun i => keyOf (acc.getD i dflt)) ncap ncap
          (hash (keyOf e) % ncap) with
      | none => none
      | some j => rehashG keyOf dflt hash ncap rest (acc.set j e)
    else rehashG keyOf dflt hash ncap rest acc

/-! ### Map operations -/

/-- `CHashMap_init` on a fresh struct (callbacks assumed non-null,
allocation assumed to succeed). -/
def CHashMap_initState (capacity : Nat) : CHashMap :=
  { entries := List.replicate (if capacity > 0 then capacity else CHASHMAP_DEFAULT_CAPACITY) dfltE
    size := 0
    capacity := if capacity > 0 then capacity else CHASHMAP_DEFAULT_CAPACITY }

/-- `static int CHashMap_resize(CHashMap_t *map)`: grow to
`ceil(capacity * 1.5)` and re-home every occupied entry; `map->size` is not
touched.  `none` models the inner probe loop cycling forever. -/
def CHashMap_resize (hash : Ptr → Nat) (m : CHashMap) : Option CHashMap :=
  match rehashG HEntry.key dfltE hash (ceilHalfTriple m.capacity) m.entries
      (List.replicate (ceilHalfTriple m.capacity) dfltE) with
  | none => none
  | some t => some { entries := t, size := m.size, capacity := ceilHalfTriple m.capacity }

/-- Lines 125-138 of `CHashMap_insert`: the probe-and-write stage run on
the table after the optional resize.  On an occupied `cmp`-match the value
is overwritten in place (the stored key is kept, `size` unchanged);
otherwise the stopping slot (empty or tombstone) receives the new entry
and `size` is incremented. -/
def CHashMap_insertCore (cmp : Ptr → Ptr → Int) (hash : Ptr → Nat)
    (m1 : CHashMap) (key value : Ptr) : MRes (Option CHashMap) :=
  if m1.capacity = 0 then .ub
  else
    match insScan (keyAtM m1) cmp m1.capacity key m1.capacity
        (hash key % m1.capacity) with
    | none => .div
    | some (true, i) =>
      .ok CHASHMAP_SUCCESS (some { m1 with
        entries := m1.entries.set i ⟨(m1.entries.getD i dfltE).key, value⟩ })
    | some (false, i) =>
      .ok CHASHMAP_SUCCESS (some { m1 with
        entries := m1.entries.set i ⟨key, value⟩
        size := m1.size + 1 })

/-- `int CHashMap_insert(CHashMap_t *map, void *key, void *value)`:
null guard, then the resize-if-loaded stage (lines 121-124), then the
probe-and-write stage `CHashMap_insertCore`.  Note the guard
`if (!map || !key || !value) return CHASHMAP_NULL_VAL;` conflates a null
map with a null key/value. -/
def CHashMap_insert (cmp : Ptr → Ptr → Int) (hash : Ptr → Nat) :
    Option CHashMap → Ptr → Ptr → MRes (Option CHashMap)
  | none, _, _ => .ok CHASHMAP_NULL_VAL none
  | some m, key, value =>
    if key = NULLPTR ∨ value = NULLPTR then .ok CHASHMAP_NULL_VAL (some m)
    else
      match (if lfGtM m then CHashMap_resize hash m else some m) with
      | none => .div
      | some m1 => CHashMap_insertCore cmp hash m1 key value

/-- `CResult_t *CHashMap_get(CHashMap_t *map, void *key)`; returns the
`NULL` pointer when `map` or `key` is null.  A cleared map has
`capacity == 0`, so the index computation `hash(key) % capacity` divides
by zero: undefined behaviour. -/
def CHashMap_get (cmp : Ptr → Ptr → Int) (hash : Ptr → Nat) :
    Option CHashMap → Ptr → GetRes
  | none, _ => .nullret
  | some m, key =>
    if key = NULLPTR then .nullret
    else if m.capacity = 0 then .ub
    else
      match lookScan (keyAtM m) cmp m.capacity key m.capacity
          (hash key % m.capacity) with
      | none => .div
      | some none => .errc CHASHMAP_NOT_FOUND
      | some (some i) => .found (m.entries.getD i dfltE).value

/-- `int CHashMap_remove(CHashMap_t *map, void *key)`: tombstone the
matched slot, `size--`. -/
def CHashMap_remove (cmp : Ptr → Ptr → Int) (hash : Ptr → Nat) :
    Option CHashMap → Ptr → MRes (Option CHashMap)
  | none, _ => .ok CHASHMAP_NULL_VAL none
  | some m, key =>
    if key = NULLPTR then .ok CHASHMAP_NULL_VAL (some m)
    else if m.capacity = 0 then .ub
    else
      match lookScan (keyAtM m) cmp m.capacity key m.capacity
          (hash key % m.capacity) with
      | none => .div
      | some none => .ok CHASHMAP_NOT_FOUND (some m)
      | some (some i) =>
        .ok CHASHMAP_SUCCESS (some { m with
          entries := m.entries.set i ⟨DELETED, NULLPTR⟩
          size := m.size - 1 })

/-- `int CHashMap_update(CHashMap_t *map, void *key, void *new_value)`:
overwrite the value of an existing key, `CHASHMAP_NOT_FOUND` otherwise. -/
def CHashMap_update (cmp : Ptr → Ptr → Int) (hash : Ptr → Nat) :
    Option CHashMap → Ptr → Ptr → MRes (Option CHashMap)
  | none, _, _ => .ok CHASHMAP_NULL_VAL none
  | some m, key, newValue =>
    if key = NULLPTR ∨ newValue = NULLPTR then .ok CHASHMAP_NULL_VAL (some m)
    else if m.capacity = 0 then .ub
    else
      match lookScan (keyAtM m) cmp m.capacity key m.capacity
          (hash key % m.capacity) with
      | none => .div
      | some none => .ok CHASHMAP_NOT_FOUND (some m)
      | some (some i) =>
        .ok CHASHMAP_SUCCESS (some { m with
          entries := m.entries.set i ⟨(m.entries.getD i dfltE).key, newValue⟩ })

/-- `int CHashMap_clear(CHashMap_t *map)`: destructors run, the slot array
is freed (`entries = NULL`, modelled `[]`), `capacity` and `size` reset. -/
def CHashMap_clear : Option CHashMap → MRes (Option CHashMap)
  | none => .ok CHASHMAP_NULL_MAP none
  | some _ => .ok CHASHMAP_SUCCESS (some { entries := [], size := 0, capacity := 0 })

/-- `int CHashMap_free(CHashMap_t **map)`: guards both `map` and `*map`,
frees everything and nulls the caller's pointer (`*map = NULL`). -/
def CHashMap_free : Option (Option CHashMap) → MRes (Option (Option CHashMap))
  | none => .ok CHASHMAP_NULL_MAP none
  | some none => .ok CHASHMAP_NULL_MAP (some none)
  | some (some _) => .ok CHASHMAP_SUCCESS (some none)

/-! ### Set operations -/

/-- `CHashSet_init` on a fresh struct. -/
def CHashSet_initState (capacity : Nat) : CHashSet :=
  { entries := List.replicate (if capacity > 0 then capacity else CHASHSET_DEFAULT_CAPACITY) NULLPTR
    size := 0
    capacity := if capacity > 0 then capacity else CHASHSET_DEFAULT_CAPACITY
    deleted_count := 0 }

/-- `static int CHashSet_resize(CHashSet_t *set)`: re-homes every occupied
key, recomputing `size` (one increment per moved key) and resetting
`deleted_count` to 0. -/
def CHashSet_resize (hash : Ptr → Nat) (s : CHashSet) : Option CHashSet :=
  match rehashG id NULLPTR hash (ceilHalfTriple s.capacity) s.entries
      (List.replicate (ceilHalfTriple s.capacity) NULLPTR) with
  | none => none
  | some t => some { entries := t
                     size := occCount id s.entries
                     capacity := ceilHalfTriple s.capacity
                     deleted_count := 0 }

/-- Lines 139-151 of `CHashSet_add`: the probe-and-write stage run on the
table after the optional resize.  A duplicate is a no-op success. -/
def CHashSet_addCore (cmp : Ptr → Ptr → Int) (hash : Ptr → Nat)
    (s1 : CHashSet) (key : Ptr) : MRes (Option CHashSet) :=
  if s1.capacity = 0 then .ub
  else
    match insScan (keyAtS s1) cmp s1.capacity key s1.capacity
        (hash key % s1.capacity) with
    | none => .div
    | some (true, _) => .ok CHASHSET_SUCCESS (some s1)
    | some (false, i) =>
      .ok CHASHSET_SUCCESS (some { s1 with
        entries := s1.entries.set i key
        size := s1.size + 1 })

/-- `int CHashSet_add(CHashSet_t *set, void *key)`: null guards, the
resize-if-loaded stage (lines 134-137), then `CHashSet_addCore`. -/
def CHashSet_add (cmp : Ptr → Ptr → Int) (hash : Ptr → Nat) :
    Option CHashSet → Ptr → MRes (Option CHashSet)
  | none, _ => .ok CHASHSET_NULL_SET none
  | some s, key =>
    if key = NULLPTR then .ok CHASHSET_NULL_KEY (some s)
    else
      match (if lfGtS s then CHashSet_resize hash s else some s) with
      | none => .div
      | some s1 => CHashSet_addCore cmp hash s1 key

/-- `int CHashSet_contains(CHashSet_t *set, void *key)`. -/
def CHashSet_contains (cmp : Ptr → Ptr → Int) (hash : Ptr → Nat) :
    Option CHashSet → Ptr → IRes
  | none, _ => .code CHASHSET_NULL_SET
  | some s, key =>
    if key = NULLPTR then .code CHASHSET_NULL_KEY
    else if s.capacity = 0 then .ub
    else
      match lookScan (keyAtS s) cmp s.capacity key s.capacity
          (hash key % s.capacity) with
      | none => .div
      | some none => .code CHASHSET_NOT_FOUND
      | some (some _) => .code CHASHSET_SUCCESS

/-- `int CHashSet_remove(CHashSet_t *set, void *key)`. -/
def CHashSet_remove (cmp : Ptr → Ptr → Int) (hash : Ptr → Nat) :
    Option CHashSet → Ptr → MRes (Option CHashSet)
  | none, _ => .ok CHASHSET_NULL_SET none
  | some s, key =>
    if key = NULLPTR then .ok CHASHSET_NULL_KEY (some s)
    else if s.capacity = 0 then .ub
    else
      match lookScan (keyAtS s) cmp s.capacity key s.capacity
          (hash key % s.capacity) with
      | none => .div
      | some none => .ok CHASHSET_NOT_FOUND (some s)
      | some (some i) =>
        .ok CHASHSET_SUCCESS (some { s with
          entries := s.entries.set i DELETED
          size := s.size - 1
          deleted_count := s.deleted_count + 1 })

/-- `int CHashSet_clear(CHashSet_t *set)`. -/
def CHashSet_clear : Option CHashSet → MRes (Option CHashSet)
  | none => .ok CHASHSET_NULL_SET none
  | some _ => .ok CHASHSET_SUCCESS
      (some { entries := [], size := 0, capacity := 0, deleted_count := 0 })

/-- `int CHashSet_free(CHashSet_t **set)`: the guard checks only the outer
pointer, so a second free dereferences the nulled `*set`: undefined
behaviour. -/
def CHashSet_free : Option (Option CHashSet) → MRes (Option (Option CHashSet))
  | none => .ok CHASHSET_NULL_SET none
  | some none => .ub
  | some (some _) => .ok CHASHSET_SUCCESS (some none)

/-! ### State-threaded lookups (for the frame property)

`CHashMap_get` and `CHashSet_contains` re-translated with the table state
explicitly carried through every loop iteration and returned, so that the
absence of mutation is a provable statement rather than a typing
convention. -/

/-- The lookup loop of `CHashMap_get`, threading the map through each
iteration exactly as the C loop body could mutate it (it never does). -/
def lookLoopMapT (cmp : Ptr → Ptr → Int) (kk : Ptr) :
    Nat → Nat → CHashMap → Option (Option Nat) × CHashMap
  | 0, _, m => (none, m)
  | fuel + 1, idx, m =>
    if keyAtM m idx = NULLPTR then (some none, m)
    else if keyAtM m idx ≠ DELETED ∧ cmp (keyAtM m idx) kk = 0 then (some (some idx), m)
    else lookLoopMapT cmp kk fuel ((idx + 1) % m.capacity) m

/-- `CHashMap_get` with the table state threaded and returned. -/
def CHashMap_get_t (cmp : Ptr → Ptr → Int) (hash : Ptr → Nat) :
    Option CHashMap → Ptr → GetRes × Option CHashMap
  | none, _ => (.nullret, none)
  | some m, key =>
    if key = NULLPTR then (.nullret, some m)
    else if m.capacity = 0 then (.ub, some m)
    else
      match lookLoopMapT cmp key m.capacity (hash key % m.capacity) m with
      | (none, m2) => (.div, some m2)
      | (some none, m2) => (.errc CHASHMAP_NOT_FOUND, some m2)
      | (some (some i), m2) => (.found (m2.entries.getD i dfltE).value, some m2)

/-- The lookup loop of `CHashSet_contains`, threading the set state. -/
def lookLoopSetT (cmp : Ptr → Ptr → Int) (kk : Ptr) :
    Nat → Nat → CHashSet → Option (Option Nat) × CHashSet
  | 0, _, s => (none, s)
  | fuel + 1, idx, s =>
    if keyAtS s idx = NULLPTR then (some none, s)
    else if keyAtS s idx ≠ DELETED ∧ cmp (keyAtS s idx) kk = 0 then (some (some idx), s)
    else lookLoopSetT cmp kk fuel ((idx + 1) % s.capacity) s

/-- `CHashSet_contains` with the table state threaded and returned. -/
def CHashSet_contains_t (cmp : Ptr → Ptr → Int) (hash : Ptr → Nat) :
    Option CHashSet → Ptr → IRes × Option CHashSet
  | none, _ => (.code CHASHSET_NULL_SET, none)
  | some s, key =>
    if key = NULLPTR then (.code CHASHSET_NULL_KEY, some s)
    else if s.capacity = 0 then (.ub, some s)
    else
      match lookLoopSetT cmp key s.capacity (hash key % s.capacity) s with
      | (none, s2) => (.div, some s2)
      | (some none, s2) => (.code CHASHSET_NOT_FOUND, some s2)
      | (some (some _), s2) => (.code CHASHSET_SUCCESS, some s2)

/-! ## Basic lemmas -/

/-- The integer-arithmetic threshold test equals the C expression
`CHashMap_load_factor(map) > 0.75` under the IEEE conventions of `fdiv`. -/
theorem lfGtM_eq (m : CHashMap) :
    lfGtM m =
      (match CHashMap_load_factor (some m) with
       | some q => decide ((3 / 4 : ℚ) < q)
       | none => decide (m.size ≠ 0)) := by
  unfold lfGtM CHashMap_load_factor fdiv
  by_cases h : m.capacity = 0
  · simp [h]
  · have hc : ((m.capacity : ℚ)) ≠ 0 := by exact_mod_cast h
    have hcpos : (0 : ℚ) < (m.capacity : ℚ) := by
      have : 0 < m.capacity := Nat.pos_of_ne_zero h
      exact_mod_cast this
    simp only [hc, if_neg h, if_neg hc]
    have hiff : ((3 / 4 : ℚ) < (m.size : ℚ) / (m.capacity : ℚ)) ↔
        (3 * m.capacity < 4 * m.size) := by
      rw [div_lt_div_iff₀ (by norm_num) hcpos]
      constructor
      · intro hlt
        have h2 : ((3 * m.capacity : Nat) : ℚ) < ((4 * m.size : Nat) : ℚ) := by
          push_cast; linarith
        exact_mod_cast h2
      · intro hlt
        have h2 : ((3 * m.capacity : Nat) : ℚ) < ((4 * m.size : Nat) : ℚ) := by
          exact_mod_cast hlt
        push_cast at h2; linarith
    simp [hiff]

/-- Set version of `lfGtM_eq`. -/
theorem lfGtS_eq (s : CHashSet) :
    lfGtS s =
      (match CHashSet_load_factor (some s) with
       | some q => decide ((3 / 4 : ℚ) < q)
       | none => decide (s.size ≠ 0)) := by
  unfold lfGtS CHashSet_load_factor fdiv
  by_cases h : s.capacity = 0
  · simp [h]
  · have hc : ((s.capacity : ℚ)) ≠ 0 := by exact_mod_cast h
    have hcpos : (0 : ℚ) < (s.capacity : ℚ) := by
      have : 0 < s.capacity := Nat.pos_of_ne_zero h
      exact_mod_cast this
    simp only [hc, if_neg h, if_neg hc]
    have hiff : ((3 / 4 : ℚ) < (s.size : ℚ) / (s.capacity : ℚ)) ↔
        (3 * s.capacity < 4 * s.size) := by
      rw [div_lt_div_iff₀ (by norm_num) hcpos]
      constructor
      · intro hlt
        have h2 : ((3 * s.capacity : Nat) : ℚ) < ((4 * s.size : Nat) : ℚ) := by
          push_cast; linarith
        exact_mod_cast h2
      · intro hlt
        have h2 : ((3 * s.capacity : Nat) : ℚ) < ((4 * s.size : Nat) : ℚ) := by
          exact_mod_cast hlt
        push_cast at h2; linarith
    simp [hiff]

/-! ### List access helpers -/

theorem getD_set_self {α : Type} :
    ∀ (l : List α) (i : Nat) (x d : α), i < l.length → (l.set i x).getD i d = x
  | [], i, x, d, h => absurd h (by simp)
  | a :: l, 0, x, d, _ => rfl
  | a :: l, i + 1, x, d, h =>
    getD_set_self l i x d (by simpa using h)

theorem getD_set_ne {α : Type} :
    ∀ (l : List α) (i j : Nat) (x d : α), i ≠ j → (l.set i x).getD j d = l.getD j d
  | [], i, j, x, d, _ => by simp
  | a :: l, 0, 0, x, d, h => absurd rfl h
  | a :: l, 0, j + 1, x, d, _ => rfl
  | a :: l, i + 1, 0, x, d, _ => rfl
  | a :: l, i + 1, j + 1, x, d, h =>
    getD_set_ne l i j x d (fun he => h (by omega))

theorem getD_replicate {α : Type} :
    ∀ (n i : Nat) (a : α), (List.replicate n a).getD i a = a
  | 0, i, a => rfl
  | n + 1, 0, a => rfl
  | n + 1, i + 1, a => getD_replicate n i a

theorem getD_eq_getElem {α : Type} (l : List α) (i : Nat) (d : α) (h : i < l.length) :
    l.getD i d = l[i] := by
  simp [List.getD, List.getElem?_eq_getElem h]

/-- Counting under a pointwise update, in overflow-free additive form. -/
theorem countP_set {α : Type} (p : α → Bool) :
    ∀ (l : List α) (i : Nat) (x d : α), i < l.length →
      (l.set i x).countP p + (if p (l.getD i d) then 1 else 0) =
        l.countP p + (if p x then 1 else 0)
  | [], i, x, d, h => absurd h (by simp)
  | a :: l, 0, x, d, _ => by
    have hg : (a :: l).getD 0 d = a := rfl
    have hs : (a :: l).set 0 x = x :: l := rfl
    rw [hg, hs, List.countP_cons, List.countP_cons]
    omega
  | a :: l, i + 1, x, d, h => by
    have ih := countP_set p l i x d (by simpa using h)
    simp only [List.set, List.countP_cons]
    have hg : (a :: l).getD (i + 1) d = l.getD i d := rfl
    rw [hg]
    omega

/-- A list counting strictly fewer `p`-elements than its length has a
non-`p` slot. -/
theorem exists_not_of_countP_lt {α : Type} (p : α → Bool) (l : List α) (d : α)
    (h : l.countP p < l.length) : ∃ i, i < l.length ∧ ¬ p (l.getD i d) = true := by
  by_contra hc
  push_neg at hc
  have : ∀ a ∈ l, p a = true := by
    intro a ha
    obtain ⟨i, hi, he⟩ := List.mem_iff_getElem.mp ha
    have := hc i hi
    rw [getD_eq_getElem l i d hi] at this
    simp only [he] at this
    simpa using this
  rw [List.countP_eq_length.mpr this] at h
  omega

/-! ### Cyclic distance -/

/-- Number of +1 (mod `n`) probe steps from slot `h` to slot `j`. -/
def dist (n h j : Nat) : Nat := (j + n - h) % n

theorem dist_lt (n h j : Nat) (hn : 0 < n) : dist n h j < n :=
  Nat.mod_lt _ hn

theorem add_dist (n h j : Nat) (hh : h < n) (hj : j < n) :
    (h + dist n h j) % n = j := by
  unfold dist
  rw [Nat.add_mod_mod]
  have he : h + (j + n - h) = j + n := by omega
  rw [he, Nat.add_mod_right, Nat.mod_eq_of_lt hj]

/-- Probe positions at distinct distances below `n` are distinct slots. -/
theorem add_mod_ne (n h x d : Nat) (hx : x < d) (hd : d < n) :
    (h + x) % n ≠ (h + d) % n := by
  intro he
  have h3 : Nat.ModEq n x d := Nat.ModEq.add_left_cancel' h he
  have h4 : x % n = d % n := h3
  rw [Nat.mod_eq_of_lt (lt_trans hx hd), Nat.mod_eq_of_lt hd] at h4
  omega

/-! ### Scan characterisation -/

section Scans

variable (keyAt : Nat → Ptr) (cmp : Ptr → Ptr → Int) (cap kk : Nat)

/-- One continuing step of the insert-side scan. -/
theorem insScan_step (fuel idx : Nat) (ho : occP (keyAt idx))
    (hc : cmp (keyAt idx) kk ≠ 0) :
    insScan keyAt cmp cap kk (fuel + 1) idx =
      insScan keyAt cmp cap kk fuel ((idx + 1) % cap) := by
  simp [insScan, ho, hc]

theorem insScan_stop_free (fuel idx : Nat) (ho : ¬ occP (keyAt idx)) :
    insScan keyAt cmp cap kk (fuel + 1) idx = some (false, idx) := by
  simp [insScan, ho]

theorem insScan_stop_match (fuel idx : Nat) (ho : occP (keyAt idx))
    (hc : cmp (keyAt idx) kk = 0) :
    insScan keyAt cmp cap kk (fuel + 1) idx = some (true, idx) := by
  simp [insScan, ho, hc]

/-- Walking `d` continuing steps of the insert-side scan. -/
theorem insScan_walk (hcap : 0 < cap) :
    ∀ (d fuel start : Nat), d ≤ fuel → start < cap →
      (∀ x, x < d → occP (keyAt ((start + x) % cap)) ∧
        cmp (keyAt ((start + x) % cap)) kk ≠ 0) →
      insScan keyAt cmp cap kk fuel start =
        insScan keyAt cmp cap kk (fuel - d) ((start + d) % cap)
  | 0, fuel, start, _, hs, _ => by
    rw [Nat.sub_zero, Nat.add_zero, Nat.mod_eq_of_lt hs]
  | d + 1, fuel, start, hd, hs, hcond => by
    obtain ⟨f, rfl⟩ : ∃ f, fuel = f + 1 := ⟨fuel - 1, by omega⟩
    have h0 := hcond 0 (by omega)
    rw [Nat.add_zero, Nat.mod_eq_of_lt hs] at h0
    rw [insScan_step keyAt cmp cap kk f start h0.1 h0.2]
    have hstep := insScan_walk hcap d f ((start + 1) % cap) (by omega)
      (Nat.mod_lt _ hcap)
      (by
        intro x hx
        have h1 := hcond (x + 1) (by omega)
        rw [Nat.mod_add_mod, Nat.add_assoc, Nat.add_comm 1 x]
        exact h1)
    rw [hstep, Nat.mod_add_mod]
    have he1 : start + 1 + d = start + (d + 1) := by omega
    have he2 : f - d = f + 1 - (d + 1) := by omega
    rw [he1, he2]

/-- If every slot keeps the insert-side scan going, it never stops. -/
theorem insScan_none
    (h : ∀ i, i < cap → occP (keyAt i) ∧ cmp (keyAt i) kk ≠ 0) :
    ∀ (fuel idx : Nat), idx < cap → insScan keyAt cmp cap kk fuel idx = none
  | 0, idx, _ => rfl
  | fuel + 1, idx, hi => by
    have hcap : 0 < cap := by omega
    obtain ⟨ho, hc⟩ := h idx hi
    rw [insScan_step keyAt cmp cap kk fuel idx ho hc]
    exact insScan_none h fuel ((idx + 1) % cap) (Nat.mod_lt _ hcap)

/-- One continuing step of the lookup-side scan: a non-empty slot that is
either a tombstone or a non-matching key. -/
theorem lookScan_step (fuel idx : Nat) (h0 : keyAt idx ≠ NULLPTR)
    (hc : ¬ (keyAt idx ≠ DELETED ∧ cmp (keyAt idx) kk = 0)) :
    lookScan keyAt cmp cap kk (fuel + 1) idx =
      lookScan keyAt cmp cap kk fuel ((idx + 1) % cap) := by
  simp only [lookScan, if_neg h0, if_neg hc]

theorem lookScan_stop_empty (fuel idx : Nat) (h0 : keyAt idx = NULLPTR) :
    lookScan keyAt cmp cap kk (fuel + 1) idx = some none := by
  simp [lookScan, h0]

theorem lookScan_stop_found (fuel idx : Nat) (h0 : keyAt idx ≠ NULLPTR)
    (hd : keyAt idx ≠ DELETED) (hc : cmp (keyAt idx) kk = 0) :
    lookScan keyAt cmp cap kk (fuel + 1) idx = some (some idx) := by
  simp [lookScan, h0, hd, hc]

/-- Walking `d` continuing steps of the lookup-side scan. -/
theorem lookScan_walk (hcap : 0 < cap) :
    ∀ (d fuel start : Nat), d ≤ fuel → start < cap →
      (∀ x, x < d → keyAt ((start + x) % cap) ≠ NULLPTR ∧
        ¬ (keyAt ((start + x) % cap) ≠ DELETED ∧
           cmp (keyAt ((start + x) % cap)) kk = 0)) →
      lookScan keyAt cmp cap kk fuel start =
        lookScan keyAt cmp cap kk (fuel - d) ((start + d) % cap)
  | 0, fuel, start, _, hs, _ => by
    rw [Nat.sub_zero, Nat.add_zero, Nat.mod_eq_of_lt hs]
  | d + 1, fuel, start, hd, hs, hcond => by
    obtain ⟨f, rfl⟩ : ∃ f, fuel = f + 1 := ⟨fuel - 1, by omega⟩
    have h0 := hcond 0 (by omega)
    rw [Nat.add_zero, Nat.mod_eq_of_lt hs] at h0
    rw [lookScan_step keyAt cmp cap kk f start h0.1 h0.2]
    have hstep := lookScan_walk hcap d f ((start + 1) % cap) (by omega)
      (Nat.mod_lt _ hcap)
      (by
        intro x hx
        have h1 := hcond (x + 1) (by omega)
        rw [Nat.mod_add_mod, Nat.add_assoc, Nat.add_comm 1 x]
        exact h1)
    rw [hstep, Nat.mod_add_mod]
    have he1 : start + 1 + d = start + (d + 1) := by omega
    have he2 : f - d = f + 1 - (d + 1) := by omega
    rw [he1, he2]

/-- If every slot keeps the lookup-side scan going (non-empty, and not a
live match), it never stops: the C lookup loop cycles forever. -/
theorem lookScan_none
    (h : ∀ i, i < cap → keyAt i ≠ NULLPTR ∧
      (keyAt i ≠ DELETED → cmp (keyAt i) kk ≠ 0)) :
    ∀ (fuel idx : Nat), idx < cap → lookScan keyAt cmp cap kk fuel idx = none
  | 0, idx, _ => rfl
  | fuel + 1, idx, hi => by
    have hcap : 0 < cap := by omega
    obtain ⟨h0, hc⟩ := h idx hi
    rw [lookScan_step keyAt cmp cap kk fuel idx h0 (by
      intro hand
      exact hc hand.1 hand.2)]
    exact lookScan_none h fuel ((idx + 1) % cap) (Nat.mod_lt _ hcap)

end Scans

section EmpScan

variable (keyAt : Nat → Ptr) (cap : Nat)

theorem empScan_step (fuel idx : Nat) (h0 : keyAt idx ≠ NULLPTR) :
    empScan keyAt cap (fuel + 1) idx = empScan keyAt cap fuel ((idx + 1) % cap) := by
  simp [empScan, h0]

theorem empScan_stop (fuel idx : Nat) (h0 : keyAt idx = NULLPTR) :
    empScan keyAt cap (fuel + 1) idx = some idx := by
  simp [empScan, h0]

theorem empScan_walk (hcap : 0 < cap) :
    ∀ (d fuel start : Nat), d ≤ fuel → start < cap →
      (∀ x, x < d → keyAt ((start + x) % cap) ≠ NULLPTR) →
      empScan keyAt cap fuel start =
        empScan keyAt cap (fuel - d) ((start + d) % cap)
  | 0, fuel, start, _, hs, _ => by
    rw [Nat.sub_zero, Nat.add_zero, Nat.mod_eq_of_lt hs]
  | d + 1, fuel, start, hd, hs, hcond => by
    obtain ⟨f, rfl⟩ : ∃ f, fuel = f + 1 := ⟨fuel - 1, by omega⟩
    have h0 := hcond 0 (by omega)
    rw [Nat.add_zero, Nat.mod_eq_of_lt hs] at h0
    rw [empScan_step keyAt cap f start h0]
    have hstep := empScan_walk hcap d f ((start + 1) % cap) (by omega)
      (Nat.mod_lt _ hcap)
      (by
        intro x hx
        have h1 := hcond (x + 1) (by omega)
        rw [Nat.mod_add_mod, Nat.add_assoc, Nat.add_comm 1 x]
        exact h1)
    rw [hstep, Nat.mod_add_mod]
    have he1 : start + 1 + d = start + (d + 1) := by omega
    have he2 : f - d = f + 1 - (d + 1) := by omega
    rw [he1, he2]

end EmpScan

/-! ## Table invariants

The map and the set share the probing core, so the invariants and the key
lemmas are stated once over an arbitrary entry type with a key
projection. -/

/-- Contract of the user-supplied callbacks (spec section 6): `cmp`-zero is
an equality (reflexive and symmetric) and `hash` is deterministic for
`cmp`-equal keys. -/
structure GoodFns (cmp : Ptr → Ptr → Int) (hash : Ptr → Nat) : Prop where
  refl : ∀ a, cmp a a = 0
  symm : ∀ a b, cmp a b = 0 → cmp b a = 0
  compat : ∀ a b, cmp a b = 0 → hash a = hash b

section Table

variable {α : Type} (keyOf : α → Ptr) (dflt : α) (cmp : Ptr → Ptr → Int) (hash : Ptr → Nat)

/-- Key stored at slot `i`. -/
def keyAtG (t : List α) (i : Nat) : Ptr := keyOf (t.getD i dflt)

/-- Slot `i` holds a live entry. -/
def occG (t : List α) (i : Nat) : Prop := occP (keyAtG keyOf dflt t i)

/-- Every slot on the probe path from `h` up to (exclusive) `j` is
occupied, so a probe from `h` reaches `j` without stopping early. -/
def chainOcc (t : List α) (cap h j : Nat) : Prop :=
  ∀ x, x < dist cap h j → occG keyOf dflt t ((h + x) % cap)

/-- Key `k` is present: some occupied slot holds a `cmp`-equal key. -/
def memG (t : List α) (cap : Nat) (k : Ptr) : Prop :=
  ∃ i, i < cap ∧ occG keyOf dflt t i ∧ cmp (keyAtG keyOf dflt t i) k = 0

/-- Well-formedness of a probe table: correct array length, no tombstones
(maintained on remove-free histories), keys pairwise distinct under `cmp`
among occupied slots, and every occupied slot reachable from its key's
home slot through occupied slots. -/
structure TWF (t : List α) (cap : Nat) : Prop where
  len : t.length = cap
  pos : 0 < cap
  noTomb : ∀ i, i < cap → keyAtG keyOf dflt t i ≠ DELETED
  uniq : ∀ i j, i < cap → j < cap → i ≠ j → occG keyOf dflt t i →
    occG keyOf dflt t j →
    cmp (keyAtG keyOf dflt t i) (keyAtG keyOf dflt t j) ≠ 0
  chain : ∀ j, j < cap → occG keyOf dflt t j →
    chainOcc keyOf dflt t cap (hash (keyAtG keyOf dflt t j) % cap) j

/-- A table with fewer occupied slots than capacity has a truly empty slot
(no tombstones by `TWF.noTomb`). -/
theorem TWF.exists_empty {t : List α} {cap : Nat}
    (hw : TWF keyOf dflt cmp hash t cap)
    (hcnt : occCount keyOf t < cap) :
    ∃ j, j < cap ∧ keyAtG keyOf dflt t j = NULLPTR := by
  obtain ⟨j, hj, hnp⟩ := exists_not_of_countP_lt (fun e => occB (keyOf e)) t dflt
    (by rw [hw.len]; exact hcnt)
  rw [hw.len] at hj
  refine ⟨j, hj, ?_⟩
  have : ¬ occP (keyAtG keyOf dflt t j) := by
    intro hocc
    exact hnp (by simpa [occB, keyAtG] using hocc)
  rcases Classical.em (keyAtG keyOf dflt t j = NULLPTR) with h0 | h0
  · exact h0
  · exact absurd ⟨h0, hw.noTomb j hj⟩ this

/-- Distance from `h` to the probe position `d` steps later is `d`. -/
theorem dist_add_mod (cap h d : Nat) (hh : h < cap) (hd : d < cap) :
    dist cap h ((h + d) % cap) = d := by
  unfold dist
  rcases Nat.lt_or_ge (h + d) cap with hlt | hge
  · rw [Nat.mod_eq_of_lt hlt]
    have he : h + d + cap - h = d + cap := by omega
    rw [he, Nat.add_mod_right, Nat.mod_eq_of_lt hd]
  · have h1 : (h + d) % cap = h + d - cap := by
      rw [Nat.mod_eq_sub_mod hge, Nat.mod_eq_of_lt (by omega)]
    rw [h1]
    have he : h + d - cap + cap - h = d := by omega
    rw [he, Nat.mod_eq_of_lt hd]

/-- In a well-formed table a present key is found by both the insert-side
and the lookup-side scan, at the same slot: an occupied `cmp`-match. -/
theorem scan_mem {t : List α} {cap : Nat} {k : Ptr}
    (hw : TWF keyOf dflt cmp hash t cap) (hg : GoodFns cmp hash)
    (hm : memG keyOf dflt cmp t cap k) :
    ∃ i, i < cap ∧ occG keyOf dflt t i ∧ cmp (keyAtG keyOf dflt t i) k = 0 ∧
      insScan (keyAtG keyOf dflt t) cmp cap k cap (hash k % cap) =
        some (true, i) ∧
      lookScan (keyAtG keyOf dflt t) cmp cap k cap (hash k % cap) =
        some (some i) := by
  classical
  obtain ⟨i0, hi0, hocc0, hcmp0⟩ := hm
  have hcap : 0 < cap := hw.pos
  set h := hash k % cap with hdef
  have hh : h < cap := Nat.mod_lt _ hcap
  have hhome : hash (keyAtG keyOf dflt t i0) % cap = h := by
    rw [hg.compat _ _ hcmp0]
  have hchain0 : chainOcc keyOf dflt t cap h i0 := by
    have := hw.chain i0 hi0 hocc0
    rwa [hhome] at this
  set d0 := dist cap h i0 with hd0def
  have hd0 : d0 < cap := dist_lt cap h i0 hcap
  have hi0eq : (h + d0) % cap = i0 := add_dist cap h i0 hh hi0
  have hex : ∃ x, ¬ occG keyOf dflt t ((h + x) % cap) ∨
      cmp (keyAtG keyOf dflt t ((h + x) % cap)) k = 0 := by
    refine ⟨d0, Or.inr ?_⟩
    rw [hi0eq]; exact hcmp0
  set d := Nat.find hex with hddef
  have hdle : d ≤ d0 := Nat.find_le (by
    refine Or.inr ?_
    rw [hi0eq]; exact hcmp0)
  have hdlt : d < cap := lt_of_le_of_lt hdle hd0
  have hmin : ∀ x, x < d → occG keyOf dflt t ((h + x) % cap) ∧
      cmp (keyAtG keyOf dflt t ((h + x) % cap)) k ≠ 0 := by
    intro x hx
    have := Nat.find_min hex hx
    push_neg at this
    exact this
  have hspec := Nat.find_spec hex
  set i := (h + d) % cap with hidef
  have hilt : i < cap := Nat.mod_lt _ hcap
  have hocc : occG keyOf dflt t i := by
    rcases Nat.lt_or_ge d d0 with hcase | hcase
    · exact hchain0 d hcase
    · have hde : d = d0 := le_antisymm hdle hcase
      rw [hidef, hde, hi0eq]
      exact hocc0
  have hcmp : cmp (keyAtG keyOf dflt t i) k = 0 := by
    rcases hspec with hno | hyes
    · exact absurd hocc hno
    · exact hyes
  refine ⟨i, hilt, hocc, hcmp, ?_, ?_⟩
  · have hwalk := insScan_walk (keyAtG keyOf dflt t) cmp cap k hcap d cap h
      (le_of_lt hdlt) hh hmin
    rw [hwalk]
    obtain ⟨f, hf⟩ : ∃ f, cap - d = f + 1 := ⟨cap - d - 1, by omega⟩
    rw [hf]
    exact insScan_stop_match _ cmp cap k f i hocc hcmp
  · have hwalk := lookScan_walk (keyAtG keyOf dflt t) cmp cap k hcap d cap h
      (le_of_lt hdlt) hh
      (by
        intro x hx
        obtain ⟨ho, hc⟩ := hmin x hx
        exact ⟨ho.1, by
          intro hand
          exact hc hand.2⟩)
    rw [hwalk]
    obtain ⟨f, hf⟩ : ∃ f, cap - d = f + 1 := ⟨cap - d - 1, by omega⟩
    rw [hf]
    exact lookScan_stop_found _ cmp cap k f i hocc.1 hocc.2 hcmp

/-- In a well-formed table with a free slot, the insert-side scan for an
absent key stops at a non-occupied slot reached through occupied,
non-matching slots. -/
theorem scan_nonmem {t : List α} {cap : Nat} {k : Ptr}
    (hw : TWF keyOf dflt cmp hash t cap)
    (hnm : ¬ memG keyOf dflt cmp t cap k)
    (hfree : ∃ j, j < cap ∧ ¬ occG keyOf dflt t j) :
    ∃ j d, j < cap ∧ d < cap ∧ j = (hash k % cap + d) % cap ∧
      ¬ occG keyOf dflt t j ∧
      (∀ x, x < d → occG keyOf dflt t ((hash k % cap + x) % cap) ∧
        cmp (keyAtG keyOf dflt t ((hash k % cap + x) % cap)) k ≠ 0) ∧
      insScan (keyAtG keyOf dflt t) cmp cap k cap (hash k % cap) =
        some (false, j) := by
  classical
  have hcap : 0 < cap := hw.pos
  set h := hash k % cap with hdef
  have hh : h < cap := Nat.mod_lt _ hcap
  obtain ⟨j0, hj0, hnocc0⟩ := hfree
  have hex : ∃ x, ¬ occG keyOf dflt t ((h + x) % cap) := by
    refine ⟨dist cap h j0, ?_⟩
    rw [add_dist cap h j0 hh hj0]
    exact hnocc0
  set d := Nat.find hex with hddef
  have hdlt : d < cap := by
    have hle : d ≤ dist cap h j0 := Nat.find_le (by
      rw [add_dist cap h j0 hh hj0]; exact hnocc0)
    exact lt_of_le_of_lt hle (dist_lt cap h j0 hcap)
  have hspec : ¬ occG keyOf dflt t ((h + d) % cap) := Nat.find_spec hex
  have hmin : ∀ x, x < d → occG keyOf dflt t ((h + x) % cap) := by
    intro x hx
    have := Nat.find_min hex hx
    simpa using this
  refine ⟨(h + d) % cap, d, Nat.mod_lt _ hcap, hdlt, rfl, hspec, ?_, ?_⟩
  · intro x hx
    refine ⟨hmin x hx, ?_⟩
    intro hcmp
    exact hnm ⟨(h + x) % cap, Nat.mod_lt _ hcap, hmin x hx, hcmp⟩
  · have hwalk := insScan_walk (keyAtG keyOf dflt t) cmp cap k hcap d cap h
      (le_of_lt hdlt) hh
      (by
        intro x hx
        refine ⟨hmin x hx, ?_⟩
        intro hcmp
        exact hnm ⟨(h + x) % cap, Nat.mod_lt _ hcap, hmin x hx, hcmp⟩)
    rw [hwalk]
    obtain ⟨f, hf⟩ : ∃ f, cap - d = f + 1 := ⟨cap - d - 1, by omega⟩
    rw [hf]
    exact insScan_stop_free _ cmp cap k f _ hspec

/-- In a well-formed table the lookup-side scan started at the home slot of
the key stored at occupied slot `j` finds exactly slot `j`. -/
theorem scan_find {t : List α} {cap : Nat} {j : Nat}
    (hw : TWF keyOf dflt cmp hash t cap) (hg : GoodFns cmp hash)
    (hj : j < cap) (hocc : occG keyOf dflt t j) :
    lookScan (keyAtG keyOf dflt t) cmp cap (keyAtG keyOf dflt t j) cap
      (hash (keyAtG keyOf dflt t j) % cap) = some (some j) := by
  have hcap : 0 < cap := hw.pos
  set k := keyAtG keyOf dflt t j with hkdef
  set h := hash k % cap with hdef
  have hh : h < cap := Nat.mod_lt _ hcap
  set d := dist cap h j with hddef
  have hdlt : d < cap := dist_lt cap h j hcap
  have hjeq : (h + d) % cap = j := add_dist cap h j hh hj
  have hchain : chainOcc keyOf dflt t cap h j := hw.chain j hj hocc
  have hwalk := lookScan_walk (keyAtG keyOf dflt t) cmp cap k hcap d cap h
    (le_of_lt hdlt) hh
    (by
      intro x hx
      have hoccx : occG keyOf dflt t ((h + x) % cap) := hchain x hx
      refine ⟨hoccx.1, ?_⟩
      intro hand
      have hne : (h + x) % cap ≠ j := by
        rw [← hjeq]
        exact add_mod_ne cap h x d hx hdlt
      exact hw.uniq ((h + x) % cap) j (Nat.mod_lt _ hcap) hj hne hoccx hocc hand.2)
  rw [hwalk, hjeq]
  obtain ⟨f, hf⟩ : ∃ f, cap - d = f + 1 := ⟨cap - d - 1, by omega⟩
  rw [hf]
  exact lookScan_stop_found _ cmp cap k f j hocc.1 hocc.2 (hg.refl k)

/-- Keys off the written slot are unchanged. -/
theorem keyAtG_set_ne {t : List α} {j s : Nat} {e : α} (hne : j ≠ s) :
    keyAtG keyOf dflt (t.set j e) s = keyAtG keyOf dflt t s := by
  unfold keyAtG
  rw [getD_set_ne t j s e dflt hne]

/-- The written slot holds the new key. -/
theorem keyAtG_set_self {t : List α} {j : Nat} {e : α} (hj : j < t.length) :
    keyAtG keyOf dflt (t.set j e) j = keyOf e := by
  unfold keyAtG
  rw [getD_set_self t j e dflt hj]

/-- Occupancy is monotone under writing a live entry anywhere. -/
theorem occG_mono_set {t : List α} {j : Nat} {e : α}
    (hj : j < t.length) (hke : occP (keyOf e)) :
    ∀ s, occG keyOf dflt t s → occG keyOf dflt (t.set j e) s := by
  intro s hs
  rcases Classical.em (s = j) with rfl | hne
  · unfold occG
    rw [keyAtG_set_self keyOf dflt hj]
    exact hke
  · unfold occG
    rw [keyAtG_set_ne keyOf dflt (fun h => hne h.symm)]
    exact hs

/-- Writing a live entry `e` with an absent key at a free slot reached
through occupied non-matching slots preserves well-formedness and grows
the occupied count by one. -/
theorem TWF.set_free {t : List α} {cap j : Nat} {e : α}
    (hw : TWF keyOf dflt cmp hash t cap) (hg : GoodFns cmp hash)
    (hj : j < cap) (hnocc : ¬ occG keyOf dflt t j)
    (hke : occP (keyOf e))
    (hchain : chainOcc keyOf dflt t cap (hash (keyOf e) % cap) j)
    (hno : ∀ i, i < cap → occG keyOf dflt t i →
      cmp (keyAtG keyOf dflt t i) (keyOf e) ≠ 0) :
    TWF keyOf dflt cmp hash (t.set j e) cap ∧
      occCount keyOf (t.set j e) = occCount keyOf t + 1 := by
  have hjlen : j < t.length := by rw [hw.len]; exact hj
  have hkself : keyAtG keyOf dflt (t.set j e) j = keyOf e :=
    keyAtG_set_self keyOf dflt hjlen
  have hkne : ∀ s, j ≠ s → keyAtG keyOf dflt (t.set j e) s = keyAtG keyOf dflt t s :=
    fun s hne => keyAtG_set_ne keyOf dflt hne
  have hoccback : ∀ s, s ≠ j → occG keyOf dflt (t.set j e) s → occG keyOf dflt t s := by
    intro s hne hs
    unfold occG at hs
    rwa [hkne s (fun h => hne h.symm)] at hs
  constructor
  · constructor
    · rw [List.length_set]; exact hw.len
    · exact hw.pos
    · intro i hi
      by_cases hei : i = j
      · rw [hei, hkself]; exact hke.2
      · rw [hkne i (fun h => hei h.symm)]
        exact hw.noTomb i hi
    · intro i i2 hi hi2 hne hocci hocci2
      by_cases he1 : i = j
      · by_cases he2 : i2 = j
        · exact absurd (he1.trans he2.symm) hne
        · rw [he1, hkself, hkne i2 (fun h => he2 h.symm)]
          intro hc
          exact hno i2 hi2 (hoccback i2 he2 hocci2) (hg.symm _ _ hc)
      · by_cases he2 : i2 = j
        · rw [he2, hkself, hkne i (fun h => he1 h.symm)]
          exact hno i hi (hoccback i he1 hocci)
        · rw [hkne i (fun h => he1 h.symm), hkne i2 (fun h => he2 h.symm)]
          exact hw.uniq i i2 hi hi2 hne (hoccback i he1 hocci)
            (hoccback i2 he2 hocci2)
    · intro j2 hj2 hocc2
      by_cases he : j2 = j
      · rw [he, hkself]
        intro x hx
        exact occG_mono_set keyOf dflt hjlen hke _ (hchain x hx)
      · rw [hkne j2 (fun h => he h.symm)]
        intro x hx
        exact occG_mono_set keyOf dflt hjlen hke _
          (hw.chain j2 hj2 (hoccback j2 he hocc2) x hx)
  · have hstep := countP_set (fun x => occB (keyOf x)) t j e dflt hjlen
    have hold : (occB (keyOf (t.getD j dflt)) : Bool) = false := by
      have hn : ¬ occP (keyAtG keyOf dflt t j) := hnocc
      simp only [occB, keyAtG] at hn ⊢
      exact decide_eq_false hn
    have hnew : (occB (keyOf e) : Bool) = true := decide_eq_true hke
    simp only [hold, hnew, Bool.false_eq_true, if_false, if_true] at hstep
    unfold occCount
    omega

/-- Well-formedness depends only on the keys at each slot. -/
theorem TWF.congr_keys {t t2 : List α} {cap : Nat}
    (hw : TWF keyOf dflt cmp hash t cap)
    (hlen : t2.length = t.length)
    (hkeys : ∀ i, keyAtG keyOf dflt t2 i = keyAtG keyOf dflt t i) :
    TWF keyOf dflt cmp hash t2 cap := by
  have hocc : ∀ i, occG keyOf dflt t2 i ↔ occG keyOf dflt t i := by
    intro i
    unfold occG
    rw [hkeys i]
  constructor
  · rw [hlen]; exact hw.len
  · exact hw.pos
  · intro i hi
    rw [hkeys i]
    exact hw.noTomb i hi
  · intro i j hi hj hne hocci hoccj
    rw [hkeys i, hkeys j]
    exact hw.uniq i j hi hj hne ((hocc i).mp hocci) ((hocc j).mp hoccj)
  · intro j hj hoccj
    rw [hkeys j]
    intro x hx
    rw [hocc]
    exact hw.chain j hj ((hocc j).mp hoccj) x hx

/-- The occupied count depends only on the keys at each slot. -/
theorem occCount_eq_of_keys {t t2 : List α}
    (hlen : t2.length = t.length)
    (hkeys : ∀ i, keyAtG keyOf dflt t2 i = keyAtG keyOf dflt t i) :
    occCount keyOf t2 = occCount keyOf t := by
  have hmap : t2.map keyOf = t.map keyOf := by
    apply List.ext_getElem
    · simp [hlen]
    · intro i h1 h2
      have hk := hkeys i
      unfold keyAtG at hk
      rw [getD_eq_getElem _ _ _ (by simpa using h1),
        getD_eq_getElem _ _ _ (by simpa using h2)] at hk
      simpa using hk
  unfold occCount
  have h1 : t2.countP (fun e => occB (keyOf e)) = (t2.map keyOf).countP occB := by
    rw [List.countP_map]; rfl
  have h2 : t.countP (fun e => occB (keyOf e)) = (t.map keyOf).countP occB := by
    rw [List.countP_map]; rfl
  rw [h1, h2, hmap]

/-- Index-pairwise key distinctness gives list-pairwise distinctness
(tombstones allowed: only the occupied slots matter). -/
theorem pairwise_of_uniq {t : List α} {cap : Nat}
    (hlen : t.length = cap)
    (huniq : ∀ i j, i < cap → j < cap → i ≠ j → occG keyOf dflt t i →
      occG keyOf dflt t j →
      cmp (keyAtG keyOf dflt t i) (keyAtG keyOf dflt t j) ≠ 0) :
    List.Pairwise (fun a b => occP (keyOf a) → occP (keyOf b) →
      cmp (keyOf a) (keyOf b) ≠ 0) t := by
  rw [List.pairwise_iff_getElem]
  intro i j hi hj hij ha hb
  have hi2 : i < cap := by rw [← hlen]; exact hi
  have hj2 : j < cap := by rw [← hlen]; exact hj
  have hgi : keyAtG keyOf dflt t i = keyOf t[i] := by
    unfold keyAtG
    rw [getD_eq_getElem _ _ _ hi]
  have hgj : keyAtG keyOf dflt t j = keyOf t[j] := by
    unfold keyAtG
    rw [getD_eq_getElem _ _ _ hj]
  have := huniq i j hi2 hj2 (by omega)
    (by unfold occG; rw [hgi]; exact ha)
    (by unfold occG; rw [hgj]; exact hb)
  rwa [hgi, hgj] at this

end Table

/-- `empScan` with full fuel finds the first empty slot when one exists. -/
theorem empScan_found (keyAt : Nat → Ptr) (cap : Nat) (hcap : 0 < cap)
    (start : Nat) (hs : start < cap)
    (hfree : ∃ j, j < cap ∧ keyAt j = NULLPTR) :
    ∃ j d, j < cap ∧ d < cap ∧ j = (start + d) % cap ∧ keyAt j = NULLPTR ∧
      (∀ x, x < d → keyAt ((start + x) % cap) ≠ NULLPTR) ∧
      empScan keyAt cap cap start = some j := by
  classical
  obtain ⟨j0, hj0, hk0⟩ := hfree
  have hex : ∃ x, keyAt ((start + x) % cap) = NULLPTR := by
    refine ⟨dist cap start j0, ?_⟩
    rw [add_dist cap start j0 hs hj0]
    exact hk0
  set d := Nat.find hex with hddef
  have hdlt : d < cap := by
    have hle : d ≤ dist cap start j0 := Nat.find_le (by
      rw [add_dist cap start j0 hs hj0]; exact hk0)
    exact lt_of_le_of_lt hle (dist_lt cap start j0 hcap)
  have hspec : keyAt ((start + d) % cap) = NULLPTR := Nat.find_spec hex
  have hmin : ∀ x, x < d → keyAt ((start + x) % cap) ≠ NULLPTR := by
    intro x hx
    exact Nat.find_min hex hx
  refine ⟨(start + d) % cap, d, Nat.mod_lt _ hcap, hdlt, rfl, hspec, hmin, ?_⟩
  have hwalk := empScan_walk keyAt cap hcap d cap start (le_of_lt hdlt) hs hmin
  rw [hwalk]
  obtain ⟨f, hf⟩ : ∃ f, cap - d = f + 1 := ⟨cap - d - 1, by omega⟩
  rw [hf]
  exact empScan_stop keyAt cap f _ hspec

section Rehash

variable {α : Type} (keyOf : α → Ptr) (dflt : α) (cmp : Ptr → Ptr → Int) (hash : Ptr → Nat)

/-- Invariant carried through the rehashing loop: the new table is
well-formed, holds exactly the already-processed occupied entries, and
each of them sits on an unbroken probe chain from its home slot. -/
structure RehashInv (ncap : Nat) (done acc : List α) : Prop where
  wf : TWF keyOf dflt cmp hash acc ncap
  count : occCount keyOf acc = occCount keyOf done
  placed : ∀ e ∈ done, occP (keyOf e) → ∃ j, j < ncap ∧ acc.getD j dflt = e ∧
    chainOcc keyOf dflt acc ncap (hash (keyOf e) % ncap) j
  src : ∀ j, j < ncap → occG keyOf dflt acc j → acc.getD j dflt ∈ done

/-- The rehash loop preserves `RehashInv` and never hits an infinite inner
scan while strictly fewer entries than `ncap` are live. -/
theorem rehashG_go (hg : GoodFns cmp hash) (ncap : Nat) :
    ∀ (rest done acc : List α),
      List.Pairwise (fun a b => occP (keyOf a) → occP (keyOf b) →
        cmp (keyOf a) (keyOf b) ≠ 0) (done ++ rest) →
      occCount keyOf (done ++ rest) < ncap →
      RehashInv keyOf dflt cmp hash ncap done acc →
      ∃ t2, rehashG keyOf dflt hash ncap rest acc = some t2 ∧
        RehashInv keyOf dflt cmp hash ncap (done ++ rest) t2
  | [], done, acc, _, _, hinv => by
    refine ⟨acc, rfl, ?_⟩
    simpa using hinv
  | e :: rest, done, acc, hpair, hcnt, hinv => by
    have hpair2 : List.Pairwise (fun a b => occP (keyOf a) → occP (keyOf b) →
        cmp (keyOf a) (keyOf b) ≠ 0) ((done ++ [e]) ++ rest) := by
      rw [List.append_assoc, List.singleton_append]
      exact hpair
    have hcnt2 : occCount keyOf ((done ++ [e]) ++ rest) < ncap := by
      rw [List.append_assoc, List.singleton_append]
      exact hcnt
    by_cases hocce : occP (keyOf e)
    · -- the entry is live: place it at the first empty slot of `acc`
      have hncap : 0 < ncap := hinv.wf.pos
      have hcntacc : occCount keyOf acc < ncap := by
        have h1 : occCount keyOf done ≤ occCount keyOf (done ++ e :: rest) := by
          unfold occCount
          rw [List.countP_append]
          omega
        rw [hinv.count]
        omega
      obtain ⟨j0, hj0, hk0⟩ :=
        TWF.exists_empty keyOf dflt cmp hash hinv.wf hcntacc
      have hs : hash (keyOf e) % ncap < ncap := Nat.mod_lt _ hncap
      obtain ⟨j, d, hjlt, hdlt, hjeq, hkj, hmin, hscan⟩ :=
        empScan_found (keyAtG keyOf dflt acc) ncap hncap
          (hash (keyOf e) % ncap) hs ⟨j0, hj0, hk0⟩
      have hjlen2 : j < acc.length := by
        rw [hinv.wf.len]
        exact hjlt
      have hrw : rehashG keyOf dflt hash ncap (e :: rest) acc =
          rehashG keyOf dflt hash ncap rest (acc.set j e) := by
        have hlam : (fun i => keyOf (acc.getD i dflt)) = keyAtG keyOf dflt acc := rfl
        simp only [rehashG, if_pos hocce, hlam, hscan]
      have hnoccj : ¬ occG keyOf dflt acc j := fun h => h.1 hkj
      have hchainj : chainOcc keyOf dflt acc ncap (hash (keyOf e) % ncap) j := by
        intro x hx
        have hd : dist ncap (hash (keyOf e) % ncap) j = d := by
          rw [hjeq]
          exact dist_add_mod ncap _ d hs hdlt
        rw [hd] at hx
        exact ⟨hmin x hx, hinv.wf.noTomb _ (Nat.mod_lt _ hncap)⟩
      have hcross : ∀ a ∈ done, occP (keyOf a) → cmp (keyOf a) (keyOf e) ≠ 0 := by
        have hsplit := (List.pairwise_append.mp hpair).2.2
        intro a ha hocca
        exact hsplit a ha e (List.mem_cons_self e rest) hocca hocce
      have hno : ∀ i, i < ncap → occG keyOf dflt acc i →
          cmp (keyAtG keyOf dflt acc i) (keyOf e) ≠ 0 := by
        intro i hi hocci
        exact hcross _ (hinv.src i hi hocci) hocci
      obtain ⟨hwf2, hcount2⟩ :=
        TWF.set_free keyOf dflt cmp hash hinv.wf hg hjlt hnoccj hocce hchainj hno
      have hinv2 : RehashInv keyOf dflt cmp hash ncap (done ++ [e]) (acc.set j e) := by
        constructor
        · exact hwf2
        · rw [hcount2, hinv.count]
          unfold occCount
          rw [List.countP_append, List.countP_cons, List.countP_nil]
          have : (occB (keyOf e) : Bool) = true := decide_eq_true hocce
          simp [this]
        · intro e2 he2 hocc2
          rcases List.mem_append.mp he2 with hmem | hmem
          · obtain ⟨j2, hj2, hgd, hch⟩ := hinv.placed e2 hmem hocc2
            have hoccj2 : occG keyOf dflt acc j2 := by
              unfold occG keyAtG
              rw [hgd]
              exact hocc2
            have hne : j2 ≠ j := fun he => hnoccj (he ▸ hoccj2)
            refine ⟨j2, hj2, ?_, ?_⟩
            · rw [getD_set_ne acc j j2 e dflt (fun hh => hne hh.symm)]
              exact hgd
            · intro x hx
              exact occG_mono_set keyOf dflt hjlen2 hocce _ (hch x hx)
          · have he2e : e2 = e := by simpa using hmem
            subst he2e
            refine ⟨j, hjlt, getD_set_self acc j e2 dflt hjlen2, ?_⟩
            intro x hx
            exact occG_mono_set keyOf dflt hjlen2 hocce _ (hchainj x hx)
        · intro i hi hocci
          by_cases hij : i = j
          · rw [hij, getD_set_self acc j e dflt hjlen2]
            exact List.mem_append_right _ (by simp)
          · rw [getD_set_ne acc j i e dflt (fun hh => hij hh.symm)]
            have hocca : occG keyOf dflt acc i := by
              unfold occG at hocci ⊢
              rwa [keyAtG_set_ne keyOf dflt (fun hh => hij hh.symm)] at hocci
            exact List.mem_append_left _ (hinv.src i hi hocca)
      obtain ⟨t2, hrun, hfin⟩ :=
        rehashG_go hg ncap rest (done ++ [e]) (acc.set j e) hpair2 hcnt2 hinv2
      refine ⟨t2, ?_, ?_⟩
      · rw [hrw]
        exact hrun
      · rwa [List.append_assoc, List.singleton_append] at hfin
    · -- dead slot (empty, and on remove-free histories never a tombstone)
      have hrw : rehashG keyOf dflt hash ncap (e :: rest) acc =
          rehashG keyOf dflt hash ncap rest acc := by
        simp only [rehashG, if_neg hocce]
      have hinv2 : RehashInv keyOf dflt cmp hash ncap (done ++ [e]) acc := by
        constructor
        · exact hinv.wf
        · rw [hinv.count]
          unfold occCount
          rw [List.countP_append, List.countP_cons, List.countP_nil]
          have : (occB (keyOf e) : Bool) = false := decide_eq_false hocce
          simp [this]
        · intro e2 he2 hocc2
          rcases List.mem_append.mp he2 with hmem | hmem
          · exact hinv.placed e2 hmem hocc2
          · have he2e : e2 = e := by simpa using hmem
            rw [he2e] at hocc2
            exact absurd hocc2 hocce
        · intro i hi hocci
          exact List.mem_append_left _ (hinv.src i hi hocci)
      obtain ⟨t2, hrun, hfin⟩ :=
        rehashG_go hg ncap rest (done ++ [e]) acc hpair2 hcnt2 hinv2
      refine ⟨t2, ?_, ?_⟩
      · rw [hrw]
        exact hrun
      · rwa [List.append_assoc, List.singleton_append] at hfin

/-- Rehashing a pairwise-distinct table into a strictly larger fresh array
succeeds and yields a well-formed table holding exactly the old occupied
entries. -/
theorem rehashG_spec (hg : GoodFns cmp hash) (hkd : keyOf dflt = NULLPTR)
    (ncap : Nat) (hncap : 0 < ncap) (l : List α)
    (hpair : List.Pairwise (fun a b => occP (keyOf a) → occP (keyOf b) →
      cmp (keyOf a) (keyOf b) ≠ 0) l)
    (hcnt : occCount keyOf l < ncap) :
    ∃ t2, rehashG keyOf dflt hash ncap l (List.replicate ncap dflt) = some t2 ∧
      RehashInv keyOf dflt cmp hash ncap l t2 := by
  have hkey0 : ∀ i, keyAtG keyOf dflt (List.replicate ncap dflt) i = NULLPTR := by
    intro i
    unfold keyAtG
    rw [getD_replicate]
    exact hkd
  have hnocc0 : ∀ i, ¬ occG keyOf dflt (List.replicate ncap dflt) i := by
    intro i hocc
    rw [show occG keyOf dflt (List.replicate ncap dflt) i =
      occP (keyAtG keyOf dflt (List.replicate ncap dflt) i) from rfl, hkey0 i] at hocc
    exact hocc.1 rfl
  have hinv0 : RehashInv keyOf dflt cmp hash ncap [] (List.replicate ncap dflt) := by
    constructor
    · constructor
      · exact List.length_replicate ncap dflt
      · exact hncap
      · intro i hi
        rw [hkey0 i]
        unfold NULLPTR DELETED
        norm_num
      · intro i j hi hj hne hocci _
        exact absurd hocci (hnocc0 i)
      · intro j hj hoccj
        exact absurd hoccj (hnocc0 j)
    · unfold occCount
      rw [List.countP_eq_zero.mpr, List.countP_nil]
      intro a ha
      have had : a = dflt := List.eq_of_mem_replicate ha
      rw [had]
      have hnp : ¬ occP (keyOf dflt) := by
        rw [hkd]
        intro h
        exact h.1 rfl
      intro hcon
      apply hnp
      have hb : occB (keyOf dflt) = true := by simpa using hcon
      exact of_decide_eq_true hb
    · intro e he
      exact absurd he (List.not_mem_nil e)
    · intro j hj hoccj
      exact absurd hoccj (hnocc0 j)
  have := rehashG_go keyOf dflt cmp hash hg ncap l [] (List.replicate ncap dflt)
    (by simpa using hpair) (by simpa using hcnt) hinv0
  simpa using this

end Rehash

/-! ## Map- and set-level well-formedness -/

/-- Well-formedness of a `CHashMap` state: the probe-table invariant plus
`size` counting the occupied slots. -/
def MapWF (cmp : Ptr → Ptr → Int) (hash : Ptr → Nat) (m : CHashMap) : Prop :=
  TWF HEntry.key dfltE cmp hash m.entries m.capacity ∧
    m.size = occCount HEntry.key m.entries

/-- Well-formedness of a `CHashSet` state. -/
def SetWF (cmp : Ptr → Ptr → Int) (hash : Ptr → Nat) (s : CHashSet) : Prop :=
  TWF id NULLPTR cmp hash s.entries s.capacity ∧
    s.size = occCount id s.entries

theorem keyAtM_eq (m : CHashMap) :
    keyAtM m = keyAtG HEntry.key dfltE m.entries := rfl

theorem keyAtS_eq (s : CHashSet) :
    keyAtS s = keyAtG id NULLPTR s.entries := rfl

/-- A freshly `calloc`ed slot array is well-formed. -/
theorem TWF_replicate {α : Type} (keyOf : α → Ptr) (dflt : α)
    (cmp : Ptr → Ptr → Int) (hash : Ptr → Nat)
    (hkd : keyOf dflt = NULLPTR) (ncap : Nat) (hncap : 0 < ncap) :
    TWF keyOf dflt cmp hash (List.replicate ncap dflt) ncap := by
  have hkey0 : ∀ i, keyAtG keyOf dflt (List.replicate ncap dflt) i = NULLPTR := by
    intro i
    unfold keyAtG
    rw [getD_replicate]
    exact hkd
  have hnocc0 : ∀ i, ¬ occG keyOf dflt (List.replicate ncap dflt) i := by
    intro i hocc
    rw [show occG keyOf dflt (List.replicate ncap dflt) i =
      occP (keyAtG keyOf dflt (List.replicate ncap dflt) i) from rfl, hkey0 i] at hocc
    exact hocc.1 rfl
  constructor
  · exact List.length_replicate ncap dflt
  · exact hncap
  · intro i hi
    rw [hkey0 i]
    unfold NULLPTR DELETED
    norm_num
  · intro i j hi hj hne hocci _
    exact absurd hocci (hnocc0 i)
  · intro j hj hoccj
    exact absurd hoccj (hnocc0 j)

/-- A freshly `calloc`ed slot array has no occupied slots. -/
theorem occCount_replicate {α : Type} (keyOf : α → Ptr) (dflt : α)
    (hkd : keyOf dflt = NULLPTR) (ncap : Nat) :
    occCount keyOf (List.replicate ncap dflt) = 0 := by
  unfold occCount
  rw [List.countP_eq_zero]
  intro a ha
  have had : a = dflt := List.eq_of_mem_replicate ha
  rw [had]
  have hnp : ¬ occP (keyOf dflt) := by
    rw [hkd]
    intro h
    exact h.1 rfl
  intro hcon
  apply hnp
  have hb : occB (keyOf dflt) = true := by simpa using hcon
  exact of_decide_eq_true hb

/-- The slot a successful lookup-side scan reports is in range. -/
theorem lookScan_lt (keyAt : Nat → Ptr) (cmp : Ptr → Ptr → Int) (cap kk : Nat)
    (hcap : 0 < cap) :
    ∀ (fuel idx i : Nat), idx < cap →
      lookScan keyAt cmp cap kk fuel idx = some (some i) → i < cap
  | 0, idx, i, _, h => by simp [lookScan] at h
  | fuel + 1, idx, i, hidx, h => by
    by_cases h0 : keyAt idx = NULLPTR
    · rw [lookScan_stop_empty keyAt cmp cap kk fuel idx h0] at h
      simp at h
    · by_cases hm : keyAt idx ≠ DELETED ∧ cmp (keyAt idx) kk = 0
      · rw [lookScan_stop_found keyAt cmp cap kk fuel idx h0 hm.1 hm.2] at h
        have : idx = i := by simpa using h
        omega
      · rw [lookScan_step keyAt cmp cap kk fuel idx h0 hm] at h
        exact lookScan_lt keyAt cmp cap kk hcap fuel ((idx + 1) % cap) i
          (Nat.mod_lt _ hcap) h

/-- `CHashMap_init` produces a well-formed map. -/
theorem CHashMap_initState_wf (cmp : Ptr → Ptr → Int) (hash : Ptr → Nat)
    (cap : Nat) : MapWF cmp hash (CHashMap_initState cap) := by
  unfold CHashMap_initState MapWF
  constructor
  · exact TWF_replicate HEntry.key dfltE cmp hash rfl _ (by
      by_cases h : cap > 0 <;> simp [h, CHASHMAP_DEFAULT_CAPACITY])
  · rw [occCount_replicate HEntry.key dfltE rfl]

/-- `CHashSet_init` produces a well-formed set. -/
theorem CHashSet_initState_wf (cmp : Ptr → Ptr → Int) (hash : Ptr → Nat)
    (cap : Nat) : SetWF cmp hash (CHashSet_initState cap) := by
  unfold CHashSet_initState SetWF
  constructor
  · exact TWF_replicate id NULLPTR cmp hash rfl _ (by
      by_cases h : cap > 0 <;> simp [h, CHASHSET_DEFAULT_CAPACITY])
  · rw [occCount_replicate id NULLPTR rfl]

/-- Growth: the new capacity strictly exceeds the old one. -/
theorem ceilHalfTriple_gt (c : Nat) (hc : 0 < c) : c < ceilHalfTriple c := by
  unfold ceilHalfTriple
  omega

/-- `CHashMap_resize` on a well-formed map succeeds, conserves `size` and
the occupied entries, and produces a well-formed tombstone-free table. -/
theorem CHashMap_resize_spec (cmp : Ptr → Ptr → Int) (hash : Ptr → Nat)
    (hg : GoodFns cmp hash) (m : CHashMap) (hw : MapWF cmp hash m) :
    ∃ m2, CHashMap_resize hash m = some m2 ∧
      m2.size = m.size ∧ m2.capacity = ceilHalfTriple m.capacity ∧
      m.capacity < m2.capacity ∧
      MapWF cmp hash m2 ∧
      RehashInv HEntry.key dfltE cmp hash (ceilHalfTriple m.capacity)
        m.entries m2.entries := by
  have hpos : 0 < m.capacity := hw.1.pos
  have hcnt : occCount HEntry.key m.entries < ceilHalfTriple m.capacity := by
    have h1 : occCount HEntry.key m.entries ≤ m.entries.length :=
      List.countP_le_length _
    rw [hw.1.len] at h1
    have := ceilHalfTriple_gt m.capacity hpos
    omega
  obtain ⟨t2, hrun, hinv⟩ := rehashG_spec HEntry.key dfltE cmp hash hg rfl
    (ceilHalfTriple m.capacity)
    (lt_of_le_of_lt (Nat.zero_le _) (ceilHalfTriple_gt m.capacity hpos))
    m.entries (pairwise_of_uniq HEntry.key dfltE cmp hw.1.len hw.1.uniq) hcnt
  refine ⟨{ entries := t2, size := m.size, capacity := ceilHalfTriple m.capacity },
    ?_, rfl, rfl, ceilHalfTriple_gt m.capacity hpos, ?_, hinv⟩
  · unfold CHashMap_resize
    rw [hrun]
  · constructor
    · exact hinv.wf
    · rw [hinv.count]
      exact hw.2

/-- `CHashSet_resize` on a well-formed set succeeds, conserves `size`,
resets `deleted_count`, and produces a well-formed tombstone-free table. -/
theorem CHashSet_resize_spec (cmp : Ptr → Ptr → Int) (hash : Ptr → Nat)
    (hg : GoodFns cmp hash) (s : CHashSet) (hw : SetWF cmp hash s) :
    ∃ s2, CHashSet_resize hash s = some s2 ∧
      s2.size = s.size ∧ s2.capacity = ceilHalfTriple s.capacity ∧
      s.capacity < s2.capacity ∧ s2.deleted_count = 0 ∧
      SetWF cmp hash s2 ∧
      RehashInv id NULLPTR cmp hash (ceilHalfTriple s.capacity)
        s.entries s2.entries := by
  have hpos : 0 < s.capacity := hw.1.pos
  have hcnt : occCount id s.entries < ceilHalfTriple s.capacity := by
    have h1 : occCount id s.entries ≤ s.entries.length :=
      List.countP_le_length _
    rw [hw.1.len] at h1
    have := ceilHalfTriple_gt s.capacity hpos
    omega
  obtain ⟨t2, hrun, hinv⟩ := rehashG_spec id NULLPTR cmp hash hg rfl
    (ceilHalfTriple s.capacity)
    (lt_of_le_of_lt (Nat.zero_le _) (ceilHalfTriple_gt s.capacity hpos))
    s.entries (pairwise_of_uniq id NULLPTR cmp hw.1.len hw.1.uniq) hcnt
  refine ⟨⟨t2, occCount id s.entries, ceilHalfTriple s.capacity, 0⟩,
    ?_, ?_, rfl, ceilHalfTriple_gt s.capacity hpos, rfl, ?_, hinv⟩
  · unfold CHashSet_resize
    rw [hrun]
  · exact hw.2.symm
  · constructor
    · exact hinv.wf
    · exact hinv.count.symm

/-! ## Operation-level lemmas: map -/

section MapOps

variable (cmp : Ptr → Ptr → Int) (hash : Ptr → Nat)

/-- Membership transfers across a rehash in both directions. -/
theorem memG_rehash {α : Type} (keyOf : α → Ptr) (dflt : α)
    {ncap oldcap : Nat} {old new : List α} (k : Ptr)
    (hlen : old.length = oldcap)
    (hinv : RehashInv keyOf dflt cmp hash ncap old new) :
    memG keyOf dflt cmp old oldcap k ↔ memG keyOf dflt cmp new ncap k := by
  constructor
  · rintro ⟨i, hi, hocc, hcmp⟩
    have hilen : i < old.length := by rw [hlen]; exact hi
    have hmem : old.getD i dflt ∈ old := by
      rw [getD_eq_getElem _ _ _ hilen]
      exact List.getElem_mem _
    obtain ⟨j, hj, hgd, _⟩ := hinv.placed (old.getD i dflt) hmem hocc
    refine ⟨j, hj, ?_, ?_⟩
    · show occP (keyAtG keyOf dflt new j)
      unfold keyAtG
      rw [hgd]
      exact hocc
    · show cmp (keyAtG keyOf dflt new j) k = 0
      unfold keyAtG
      rw [hgd]
      exact hcmp
  · rintro ⟨j, hj, hocc, hcmp⟩
    have hmem : new.getD j dflt ∈ old := hinv.src j hj hocc
    obtain ⟨i, hilen, hie⟩ := List.mem_iff_getElem.mp hmem
    refine ⟨i, by rw [← hlen]; exact hilen, ?_, ?_⟩
    · show occP (keyAtG keyOf dflt old i)
      unfold keyAtG
      rw [getD_eq_getElem _ _ _ hilen, hie]
      exact hocc
    · show cmp (keyAtG keyOf dflt old i) k = 0
      unfold keyAtG
      rw [getD_eq_getElem _ _ _ hilen, hie]
      exact hcmp

/-- Shape of a successful `CHashMap_resize`: `size` untouched, capacity
grown by the 1.5 rule. -/
theorem CHashMap_resize_shape (m m1 : CHashMap)
    (h : CHashMap_resize hash m = some m1) :
    m1.size = m.size ∧ m1.capacity = ceilHalfTriple m.capacity := by
  unfold CHashMap_resize at h
  cases hre : rehashG HEntry.key dfltE hash (ceilHalfTriple m.capacity) m.entries
      (List.replicate (ceilHalfTriple m.capacity) dfltE) with
  | none => rw [hre] at h; exact absurd h (by simp)
  | some t =>
    rw [hre] at h
    have h3 : some ((⟨t, m.size, ceilHalfTriple m.capacity⟩ : CHashMap)) = some m1 := h
    have h2 : (⟨t, m.size, ceilHalfTriple m.capacity⟩ : CHashMap) = m1 := by
      injection h3
    rw [← h2]
    exact ⟨rfl, rfl⟩

/-- The probe-and-write stage on a well-formed, not-yet-full table always
succeeds: a duplicate overwrites in place (size unchanged, the new value
retrievable), an absent key is written at the stopping slot (size + 1). -/
theorem CHashMap_insertCore_spec (hg : GoodFns cmp hash) (m1 : CHashMap)
    (hw1 : MapWF cmp hash m1) (hlt : m1.size < m1.capacity)
    (k v : Ptr) (hk0 : k ≠ NULLPTR) (hkD : k ≠ DELETED) :
    ∃ m2, CHashMap_insertCore cmp hash m1 k v = .ok CHASHMAP_SUCCESS (some m2) ∧
      MapWF cmp hash m2 ∧ m2.capacity = m1.capacity ∧
      (memG HEntry.key dfltE cmp m1.entries m1.capacity k →
        m2.size = m1.size ∧ CHashMap_get cmp hash (some m2) k = .found v) ∧
      (¬ memG HEntry.key dfltE cmp m1.entries m1.capacity k →
        m2.size = m1.size + 1) := by
  have hcap1 : 0 < m1.capacity := hw1.1.pos
  by_cases hmem : memG HEntry.key dfltE cmp m1.entries m1.capacity k
  · obtain ⟨i, hi, hocc, hcmpi, hins, hlook⟩ :=
      scan_mem HEntry.key dfltE cmp hash hw1.1 hg hmem
    have hilen : i < m1.entries.length := by rw [hw1.1.len]; exact hi
    have hkeys : ∀ i2,
        keyAtG HEntry.key dfltE
          (m1.entries.set i ⟨(m1.entries.getD i dfltE).key, v⟩) i2 =
          keyAtG HEntry.key dfltE m1.entries i2 := by
      intro i2
      by_cases he : i2 = i
      · rw [he, keyAtG_set_self HEntry.key dfltE hilen]
        rfl
      · exact keyAtG_set_ne HEntry.key dfltE (fun hh => he hh.symm)
    refine ⟨⟨m1.entries.set i ⟨(m1.entries.getD i dfltE).key, v⟩,
        m1.size, m1.capacity⟩,
      ?_, ?_, rfl, ?_, fun hn => absurd hmem hn⟩
    · unfold CHashMap_insertCore
      rw [if_neg (by omega), keyAtM_eq, hins]
    · constructor
      · exact TWF.congr_keys HEntry.key dfltE cmp hash hw1.1
          (by rw [List.length_set]) hkeys
      · show m1.size = occCount HEntry.key
          (m1.entries.set i ⟨(m1.entries.getD i dfltE).key, v⟩)
        rw [occCount_eq_of_keys HEntry.key dfltE (by rw [List.length_set]) hkeys]
        exact hw1.2
    · intro _
      refine ⟨rfl, ?_⟩
      simp only [CHashMap_get]
      rw [if_neg hk0, if_neg (show ¬ m1.capacity = 0 from by omega)]
      have hfun : keyAtM (⟨m1.entries.set i
          ⟨(m1.entries.getD i dfltE).key, v⟩, m1.size, m1.capacity⟩ :
          CHashMap) = keyAtG HEntry.key dfltE m1.entries := funext fun i2 => hkeys i2
      rw [hfun, hlook]
      show GetRes.found ((m1.entries.set i
        ⟨(m1.entries.getD i dfltE).key, v⟩).getD i dfltE).value = _
      rw [getD_set_self m1.entries i _ dfltE hilen]
  · have hcnt : occCount HEntry.key m1.entries < m1.capacity := by
      rw [← hw1.2]
      exact hlt
    obtain ⟨j0, hj0, hk0j⟩ := TWF.exists_empty HEntry.key dfltE cmp hash hw1.1 hcnt
    have hfree : ∃ j, j < m1.capacity ∧ ¬ occG HEntry.key dfltE m1.entries j :=
      ⟨j0, hj0, fun ho => ho.1 hk0j⟩
    obtain ⟨j, d, hjlt, hdlt, hjeq, hnocc, hcond, hins⟩ :=
      scan_nonmem HEntry.key dfltE cmp hash hw1.1 hmem hfree
    have hjlen : j < m1.entries.length := by rw [hw1.1.len]; exact hjlt
    have hchainj : chainOcc HEntry.key dfltE m1.entries m1.capacity
        (hash (HEntry.key ⟨k, v⟩) % m1.capacity) j := by
      show chainOcc HEntry.key dfltE m1.entries m1.capacity
        (hash k % m1.capacity) j
      intro x hx
      have hd : dist m1.capacity (hash k % m1.capacity) j = d := by
        rw [hjeq]
        exact dist_add_mod m1.capacity _ d (Nat.mod_lt _ hcap1) hdlt
      rw [hd] at hx
      exact (hcond x hx).1
    have hno : ∀ i, i < m1.capacity → occG HEntry.key dfltE m1.entries i →
        cmp (keyAtG HEntry.key dfltE m1.entries i) (HEntry.key ⟨k, v⟩) ≠ 0 := by
      intro i hi hocc hcmp
      exact hmem ⟨i, hi, hocc, hcmp⟩
    obtain ⟨hwf2, hcnt2⟩ := TWF.set_free HEntry.key dfltE cmp hash hw1.1 hg hjlt
      hnocc (⟨hk0, hkD⟩ : occP (HEntry.key ⟨k, v⟩)) hchainj hno
    refine ⟨⟨m1.entries.set j ⟨k, v⟩, m1.size + 1, m1.capacity⟩,
      ?_, ?_, rfl, fun hm => absurd hm hmem, fun _ => rfl⟩
    · unfold CHashMap_insertCore
      rw [if_neg (by omega), keyAtM_eq, hins]
    · constructor
      · exact hwf2
      · show m1.size + 1 = occCount HEntry.key (m1.entries.set j ⟨k, v⟩)
        rw [hcnt2, ← hw1.2]

/-- The resize-if-loaded stage on a well-formed map yields a well-formed
table with the same size and membership, loaded at most 3/4. -/
theorem CHashMap_insert_stage (hg : GoodFns cmp hash) (m : CHashMap)
    (hw : MapWF cmp hash m) (k : Ptr) :
    ∃ m1, (if lfGtM m then CHashMap_resize hash m else some m) = some m1 ∧
      MapWF cmp hash m1 ∧ m1.size = m.size ∧ 4 * m1.size ≤ 3 * m1.capacity ∧
      (memG HEntry.key dfltE cmp m.entries m.capacity k ↔
        memG HEntry.key dfltE cmp m1.entries m1.capacity k) := by
  have hszle : m.size ≤ m.capacity := by
    rw [hw.2]
    have h1 : occCount HEntry.key m.entries ≤ m.entries.length :=
      List.countP_le_length _
    rw [hw.1.len] at h1
    exact h1
  by_cases hlf : lfGtM m
  · obtain ⟨m2, hres, hsz, hcap, hgrow, hwf2, hinv⟩ :=
      CHashMap_resize_spec cmp hash hg m hw
    refine ⟨m2, by rw [if_pos hlf, hres], hwf2, hsz, ?_, ?_⟩
    · rw [hsz, hcap]
      unfold ceilHalfTriple
      omega
    · have hiff := memG_rehash cmp hash HEntry.key dfltE k hw.1.len hinv
      rw [hcap]
      exact hiff
  · refine ⟨m, by rw [if_neg hlf], hw, rfl, ?_, Iff.rfl⟩
    unfold lfGtM at hlf
    by_cases hc0 : m.capacity = 0
    · have := hw.1.pos
      omega
    · rw [if_neg hc0] at hlf
      simp at hlf
      omega

/-- `CHashMap_insert` of a non-null, non-sentinel key into a well-formed
map: always a success; a present key keeps `size` and makes `get` return
the new value; an absent key increments `size`; in both cases the
post-insert load satisfies `4 * size ≤ 3 * capacity + 4`. -/
theorem CHashMap_insert_spec (hg : GoodFns cmp hash) (m : CHashMap)
    (hw : MapWF cmp hash m) (k v : Ptr)
    (hk0 : k ≠ NULLPTR) (hkD : k ≠ DELETED) (hv : v ≠ NULLPTR) :
    ∃ m2, CHashMap_insert cmp hash (some m) k v =
        .ok CHASHMAP_SUCCESS (some m2) ∧
      MapWF cmp hash m2 ∧ 4 * m2.size ≤ 3 * m2.capacity + 4 ∧
      (memG HEntry.key dfltE cmp m.entries m.capacity k →
        m2.size = m.size ∧ CHashMap_get cmp hash (some m2) k = .found v) ∧
      (¬ memG HEntry.key dfltE cmp m.entries m.capacity k →
        m2.size = m.size + 1) := by
  have hnull : ¬ (k = NULLPTR ∨ v = NULLPTR) := by
    intro h
    exact h.elim hk0 hv
  obtain ⟨m1, hm1, hw1, hsz1, hb1, hmemiff⟩ :=
    CHashMap_insert_stage cmp hash hg m hw k
  have hlt : m1.size < m1.capacity := by
    have := hw1.1.pos
    omega
  obtain ⟨m2, hcore, hw2, hcap2, hmemc, hnmemc⟩ :=
    CHashMap_insertCore_spec cmp hash hg m1 hw1 hlt k v hk0 hkD
  refine ⟨m2, ?_, hw2, ?_, ?_, ?_⟩
  · simp only [CHashMap_insert, if_neg hnull, hm1]
    exact hcore
  · by_cases hm : memG HEntry.key dfltE cmp m1.entries m1.capacity k
    · have := (hmemc hm).1
      omega
    · have := hnmemc hm
      omega
  · intro hmm
    obtain ⟨hs, hget⟩ := hmemc (hmemiff.mp hmm)
    exact ⟨by omega, hget⟩
  · intro hnm
    have := hnmemc (fun hx => hnm (hmemiff.mpr hx))
    omega

/-- Size/capacity shape of any successful probe-and-write stage (no
hypotheses on the key: even the sentinel behaves this way). -/
theorem CHashMap_insertCore_okBound (m1 m2 : CHashMap) (k v : Ptr) (c : Int)
    (h : CHashMap_insertCore cmp hash m1 k v = .ok c (some m2)) :
    (m2.size = m1.size ∨ m2.size = m1.size + 1) ∧ m2.capacity = m1.capacity := by
  unfold CHashMap_insertCore at h
  by_cases hc0 : m1.capacity = 0
  · rw [if_pos hc0] at h
    exact absurd h (by simp)
  · rw [if_neg hc0] at h
    cases hscan : insScan (keyAtM m1) cmp m1.capacity k m1.capacity
        (hash k % m1.capacity) with
    | none =>
      rw [hscan] at h
      exact absurd h (by simp)
    | some bi =>
      rw [hscan] at h
      obtain ⟨b, i⟩ := bi
      cases b
      · have h3 := h
        simp only [MRes.ok.injEq, Option.some.injEq] at h3
        have h4 : (⟨m1.entries.set i ⟨k, v⟩, m1.size + 1, m1.capacity⟩ :
            CHashMap) = m2 := h3.2
        rw [← h4]
        exact ⟨Or.inr rfl, rfl⟩
      · have h3 := h
        simp only [MRes.ok.injEq, Option.some.injEq] at h3
        have h4 : (⟨m1.entries.set i ⟨(m1.entries.getD i dfltE).key, v⟩,
            m1.size, m1.capacity⟩ : CHashMap) = m2 := h3.2
        rw [← h4]
        exact ⟨Or.inl rfl, rfl⟩

/-- Any `CHashMap_insert` that returns `CHASHMAP_SUCCESS` on a table
whose `size` does not exceed its `capacity` (true of every reachable
table, tombstones included: the spec's `0 ≤ S ≤ C`) leaves
`size ≤ 0.75 * capacity + 1`.  Only this size bound is needed: the map's
resize copies the `size` field unchanged. -/
theorem CHashMap_insert_okBound (m m2 : CHashMap)
    (hszle : m.size ≤ m.capacity) (k v : Ptr)
    (h : CHashMap_insert cmp hash (some m) k v = .ok CHASHMAP_SUCCESS (some m2)) :
    4 * m2.size ≤ 3 * m2.capacity + 4 := by
  by_cases hnull : k = NULLPTR ∨ v = NULLPTR
  · simp only [CHashMap_insert, if_pos hnull, MRes.ok.injEq] at h
    have h1 := h.1
    unfold CHASHMAP_NULL_VAL CHASHMAP_SUCCESS at h1
    omega
  · simp only [CHashMap_insert, if_neg hnull] at h
    cases hstep : (if lfGtM m then CHashMap_resize hash m else some m) with
    | none =>
      rw [hstep] at h
      exact absurd h (by simp)
    | some m1 =>
      rw [hstep] at h
      have h2 : CHashMap_insertCore cmp hash m1 k v =
          .ok CHASHMAP_SUCCESS (some m2) := h
      by_cases hc1 : m1.capacity = 0
      · exfalso
        unfold CHashMap_insertCore at h2
        rw [if_pos hc1] at h2
        exact absurd h2 (by simp)
      · have hb1 : 4 * m1.size ≤ 3 * m1.capacity := by
          by_cases hlf : lfGtM m
          · rw [if_pos hlf] at hstep
            obtain ⟨hs, hc⟩ := CHashMap_resize_shape hash m m1 hstep
            rw [hs, hc]
            unfold ceilHalfTriple
            omega
          · rw [if_neg hlf] at hstep
            have hm1 : m = m1 := by injection hstep
            subst hm1
            unfold lfGtM at hlf
            by_cases hc0 : m.capacity = 0
            · exact absurd hc0 hc1
            · rw [if_neg hc0] at hlf
              simp at hlf
              omega
        obtain ⟨hsz, hcap⟩ := CHashMap_insertCore_okBound cmp hash m1 m2 k v
          CHASHMAP_SUCCESS h2
        rcases hsz with h3 | h3 <;> omega

end MapOps

/-! ## Operation-level lemmas: set -/

section SetOps

variable (cmp : Ptr → Ptr → Int) (hash : Ptr → Nat)

/-- Shape of a successful `CHashSet_resize`: `size` recomputed as the old
occupied count, capacity grown, `deleted_count` reset. -/
theorem CHashSet_resize_shape (s s1 : CHashSet)
    (h : CHashSet_resize hash s = some s1) :
    s1.size = occCount id s.entries ∧
      s1.capacity = ceilHalfTriple s.capacity ∧ s1.deleted_count = 0 := by
  unfold CHashSet_resize at h
  cases hre : rehashG id NULLPTR hash (ceilHalfTriple s.capacity) s.entries
      (List.replicate (ceilHalfTriple s.capacity) NULLPTR) with
  | none => rw [hre] at h; exact absurd h (by simp)
  | some t =>
    rw [hre] at h
    have h3 : some ((⟨t, occCount id s.entries, ceilHalfTriple s.capacity, 0⟩ :
        CHashSet)) = some s1 := h
    have h2 : (⟨t, occCount id s.entries, ceilHalfTriple s.capacity, 0⟩ :
        CHashSet) = s1 := by
      injection h3
    rw [← h2]
    exact ⟨rfl, rfl, rfl⟩

/-- The probe-and-write stage of `CHashSet_add` on a well-formed,
not-yet-full table: a duplicate is a strict no-op (the state is returned
unchanged), an absent key is written (size + 1). -/
theorem CHashSet_addCore_spec (hg : GoodFns cmp hash) (s1 : CHashSet)
    (hw1 : SetWF cmp hash s1) (hlt : s1.size < s1.capacity)
    (k : Ptr) (hk0 : k ≠ NULLPTR) (hkD : k ≠ DELETED) :
    ∃ s2, CHashSet_addCore cmp hash s1 k = .ok CHASHSET_SUCCESS (some s2) ∧
      SetWF cmp hash s2 ∧ s2.capacity = s1.capacity ∧
      (memG id NULLPTR cmp s1.entries s1.capacity k → s2 = s1) ∧
      (¬ memG id NULLPTR cmp s1.entries s1.capacity k →
        s2.size = s1.size + 1) := by
  have hcap1 : 0 < s1.capacity := hw1.1.pos
  by_cases hmem : memG id NULLPTR cmp s1.entries s1.capacity k
  · obtain ⟨i, hi, hocc, hcmpi, hins, hlook⟩ :=
      scan_mem id NULLPTR cmp hash hw1.1 hg hmem
    refine ⟨s1, ?_, hw1, rfl, fun _ => rfl, fun hn => absurd hmem hn⟩
    unfold CHashSet_addCore
    rw [if_neg (by omega), keyAtS_eq, hins]
  · have hcnt : occCount id s1.entries < s1.capacity := by
      rw [← hw1.2]
      exact hlt
    obtain ⟨j0, hj0, hk0j⟩ := TWF.exists_empty id NULLPTR cmp hash hw1.1 hcnt
    have hfree : ∃ j, j < s1.capacity ∧ ¬ occG id NULLPTR s1.entries j :=
      ⟨j0, hj0, fun ho => ho.1 hk0j⟩
    obtain ⟨j, d, hjlt, hdlt, hjeq, hnocc, hcond, hins⟩ :=
      scan_nonmem id NULLPTR cmp hash hw1.1 hmem hfree
    have hjlen : j < s1.entries.length := by rw [hw1.1.len]; exact hjlt
    have hchainj : chainOcc id NULLPTR s1.entries s1.capacity
        (hash (id k) % s1.capacity) j := by
      show chainOcc id NULLPTR s1.entries s1.capacity (hash k % s1.capacity) j
      intro x hx
      have hd : dist s1.capacity (hash k % s1.capacity) j = d := by
        rw [hjeq]
        exact dist_add_mod s1.capacity _ d (Nat.mod_lt _ hcap1) hdlt
      rw [hd] at hx
      exact (hcond x hx).1
    have hno : ∀ i, i < s1.capacity → occG id NULLPTR s1.entries i →
        cmp (keyAtG id NULLPTR s1.entries i) (id k) ≠ 0 := by
      intro i hi hocc hcmp
      exact hmem ⟨i, hi, hocc, hcmp⟩
    obtain ⟨hwf2, hcnt2⟩ := TWF.set_free id NULLPTR cmp hash hw1.1 hg hjlt
      hnocc (⟨hk0, hkD⟩ : occP (id k)) hchainj hno
    refine ⟨⟨s1.entries.set j k, s1.size + 1, s1.capacity, s1.deleted_count⟩,
      ?_, ?_, rfl, fun hm => absurd hm hmem, fun _ => rfl⟩
    · unfold CHashSet_addCore
      rw [if_neg (by omega), keyAtS_eq, hins]
    · constructor
      · exact hwf2
      · show s1.size + 1 = occCount id (s1.entries.set j k)
        rw [hcnt2, ← hw1.2]

/-- The resize-if-loaded stage of `CHashSet_add` on a well-formed set. -/
theorem CHashSet_add_stage (hg : GoodFns cmp hash) (s : CHashSet)
    (hw : SetWF cmp hash s) (k : Ptr) :
    ∃ s1, (if lfGtS s then CHashSet_resize hash s else some s) = some s1 ∧
      SetWF cmp hash s1 ∧ s1.size = s.size ∧ 4 * s1.size ≤ 3 * s1.capacity ∧
      (memG id NULLPTR cmp s.entries s.capacity k ↔
        memG id NULLPTR cmp s1.entries s1.capacity k) := by
  have hszle : s.size ≤ s.capacity := by
    rw [hw.2]
    have h1 : occCount id s.entries ≤ s.entries.length :=
      List.countP_le_length _
    rw [hw.1.len] at h1
    exact h1
  by_cases hlf : lfGtS s
  · obtain ⟨s2, hres, hsz, hcap, hgrow, hdel, hwf2, hinv⟩ :=
      CHashSet_resize_spec cmp hash hg s hw
    refine ⟨s2, by rw [if_pos hlf, hres], hwf2, hsz, ?_, ?_⟩
    · rw [hsz, hcap]
      unfold ceilHalfTriple
      omega
    · have hiff := memG_rehash cmp hash id NULLPTR k hw.1.len hinv
      rw [hcap]
      exact hiff
  · refine ⟨s, by rw [if_neg hlf], hw, rfl, ?_, Iff.rfl⟩
    unfold lfGtS at hlf
    by_cases hc0 : s.capacity = 0
    · have := hw.1.pos
      omega
    · rw [if_neg hc0] at hlf
      simp at hlf
      omega

/-- `CHashSet_add` of a non-null, non-sentinel key into a well-formed set:
always a success; a duplicate leaves `size` unchanged (and the key remains
containable); an absent key increments `size`. -/
theorem CHashSet_add_spec (hg : GoodFns cmp hash) (s : CHashSet)
    (hw : SetWF cmp hash s) (k : Ptr)
    (hk0 : k ≠ NULLPTR) (hkD : k ≠ DELETED) :
    ∃ s2, CHashSet_add cmp hash (some s) k = .ok CHASHSET_SUCCESS (some s2) ∧
      SetWF cmp hash s2 ∧ 4 * s2.size ≤ 3 * s2.capacity + 4 ∧
      (memG id NULLPTR cmp s.entries s.capacity k →
        s2.size = s.size ∧
          CHashSet_contains cmp hash (some s2) k = .code CHASHSET_SUCCESS) ∧
      (¬ memG id NULLPTR cmp s.entries s.capacity k →
        s2.size = s.size + 1) := by
  obtain ⟨s1, hs1, hw1, hsz1, hb1, hmemiff⟩ := CHashSet_add_stage cmp hash hg s hw k
  have hlt : s1.size < s1.capacity := by
    have := hw1.1.pos
    omega
  obtain ⟨s2, hcore, hw2, hcap2, hmemc, hnmemc⟩ :=
    CHashSet_addCore_spec cmp hash hg s1 hw1 hlt k hk0 hkD
  refine ⟨s2, ?_, hw2, ?_, ?_, ?_⟩
  · simp only [CHashSet_add, if_neg hk0, hs1]
    exact hcore
  · by_cases hm : memG id NULLPTR cmp s1.entries s1.capacity k
    · have h2 := hmemc hm
      rw [h2]
      omega
    · have := hnmemc hm
      omega
  · intro hmm
    have hm1 := hmemiff.mp hmm
    have h2 := hmemc hm1
    subst h2
    refine ⟨hsz1, ?_⟩
    obtain ⟨i, hi, hocc, hcmpi, hins, hlook⟩ :=
      scan_mem id NULLPTR cmp hash hw1.1 hg hm1
    simp only [CHashSet_contains]
    rw [if_neg hk0, if_neg (show ¬ s2.capacity = 0 from by omega),
      keyAtS_eq, hlook]
  · intro hnm
    have := hnmemc (fun hx => hnm (hmemiff.mpr hx))
    omega

/-- Size/capacity shape of any successful probe-and-write stage of
`CHashSet_add`. -/
theorem CHashSet_addCore_okBound (s1 s2 : CHashSet) (k : Ptr) (c : Int)
    (h : CHashSet_addCore cmp hash s1 k = .ok c (some s2)) :
    (s2.size = s1.size ∨ s2.size = s1.size + 1) ∧ s2.capacity = s1.capacity := by
  unfold CHashSet_addCore at h
  by_cases hc0 : s1.capacity = 0
  · rw [if_pos hc0] at h
    exact absurd h (by simp)
  · rw [if_neg hc0] at h
    cases hscan : insScan (keyAtS s1) cmp s1.capacity k s1.capacity
        (hash k % s1.capacity) with
    | none =>
      rw [hscan] at h
      exact absurd h (by simp)
    | some bi =>
      rw [hscan] at h
      obtain ⟨b, i⟩ := bi
      cases b
      · have h3 := h
        simp only [MRes.ok.injEq, Option.some.injEq] at h3
        have h4 : (⟨s1.entries.set i k, s1.size + 1, s1.capacity,
            s1.deleted_count⟩ : CHashSet) = s2 := h3.2
        rw [← h4]
        exact ⟨Or.inr rfl, rfl⟩
      · have h3 := h
        simp only [MRes.ok.injEq, Option.some.injEq] at h3
        rw [← h3.2]
        exact ⟨Or.inl rfl, rfl⟩

/-- Any `CHashSet_add` that returns `CHASHSET_SUCCESS` on a table whose
slot array has `capacity` entries (true of every reachable table,
tombstones included) leaves `size ≤ 0.75 * capacity + 1`.  Only the
length is needed: the set's resize recomputes `size` by counting the
occupied slots of the array. -/
theorem CHashSet_add_okBound (s s2 : CHashSet)
    (hlen : s.entries.length = s.capacity) (k : Ptr)
    (h : CHashSet_add cmp hash (some s) k = .ok CHASHSET_SUCCESS (some s2)) :
    4 * s2.size ≤ 3 * s2.capacity + 4 := by
  by_cases hk0 : k = NULLPTR
  · simp only [CHashSet_add, if_pos hk0, MRes.ok.injEq] at h
    have h1 := h.1
    unfold CHASHSET_NULL_KEY CHASHSET_SUCCESS at h1
    omega
  · simp only [CHashSet_add, if_neg hk0] at h
    cases hstep : (if lfGtS s then CHashSet_resize hash s else some s) with
    | none =>
      rw [hstep] at h
      exact absurd h (by simp)
    | some s1 =>
      rw [hstep] at h
      have h2 : CHashSet_addCore cmp hash s1 k =
          .ok CHASHSET_SUCCESS (some s2) := h
      by_cases hc1 : s1.capacity = 0
      · exfalso
        unfold CHashSet_addCore at h2
        rw [if_pos hc1] at h2
        exact absurd h2 (by simp)
      · have hb1 : 4 * s1.size ≤ 3 * s1.capacity := by
          by_cases hlf : lfGtS s
          · rw [if_pos hlf] at hstep
            obtain ⟨hs, hc, _⟩ := CHashSet_resize_shape hash s s1 hstep
            have hocc : occCount id s.entries ≤ s.capacity := by
              have h1 : occCount id s.entries ≤ s.entries.length :=
                List.countP_le_length _
              omega
            rw [hs, hc]
            unfold ceilHalfTriple
            omega
          · rw [if_neg hlf] at hstep
            have hs1 : s = s1 := by injection hstep
            subst hs1
            unfold lfGtS at hlf
            by_cases hc0 : s.capacity = 0
            · exact absurd hc0 hc1
            · rw [if_neg hc0] at hlf
              simp at hlf
              omega
        obtain ⟨hsz, hcap⟩ := CHashSet_addCore_okBound cmp hash s1 s2 k
          CHASHSET_SUCCESS h2
        rcases hsz with h3 | h3 <;> omega

end SetOps

/-! ## Resize conservation (tombstones allowed in the old table) -/

section ResizeConserve

variable (cmp : Ptr → Ptr → Int) (hash : Ptr → Nat)

/-- `CHashMap_resize` on any valid table (correct length, positive
capacity, occupied keys pairwise distinct — tombstones allowed): the
resize succeeds, `size` and the occupied count are conserved, no
tombstone survives, and every previously occupied key is retrievable by
`CHashMap_get` with its stored value. -/
theorem CHashMap_resize_conserve (hg : GoodFns cmp hash) (m : CHashMap)
    (hlen : m.entries.length = m.capacity) (hpos : 0 < m.capacity)
    (huniq : ∀ i j, i < m.capacity → j < m.capacity → i ≠ j →
      occG HEntry.key dfltE m.entries i → occG HEntry.key dfltE m.entries j →
      cmp (keyAtG HEntry.key dfltE m.entries i)
        (keyAtG HEntry.key dfltE m.entries j) ≠ 0) :
    ∃ m2, CHashMap_resize hash m = some m2 ∧
      m2.size = m.size ∧ m2.capacity = ceilHalfTriple m.capacity ∧
      occCount HEntry.key m2.entries = occCount HEntry.key m.entries ∧
      (∀ i, i < m2.capacity → keyAtM m2 i ≠ DELETED) ∧
      (∀ i, i < m.capacity → occG HEntry.key dfltE m.entries i →
        CHashMap_get cmp hash (some m2) (keyAtM m i) = .found (valAtM m i)) := by
  have hgrow := ceilHalfTriple_gt m.capacity hpos
  have hcnt : occCount HEntry.key m.entries < ceilHalfTriple m.capacity := by
    have h1 : occCount HEntry.key m.entries ≤ m.entries.length :=
      List.countP_le_length _
    omega
  obtain ⟨t2, hrun, hinv⟩ := rehashG_spec HEntry.key dfltE cmp hash hg rfl
    (ceilHalfTriple m.capacity) (by omega) m.entries
    (pairwise_of_uniq HEntry.key dfltE cmp hlen huniq) hcnt
  refine ⟨⟨t2, m.size, ceilHalfTriple m.capacity⟩, ?_, rfl, rfl, hinv.count,
    fun i hi => hinv.wf.noTomb i hi, ?_⟩
  · unfold CHashMap_resize
    rw [hrun]
  · intro i hi hocc
    have hocce : occP (HEntry.key (m.entries.getD i dfltE)) := hocc
    have hilen : i < m.entries.length := by rw [hlen]; exact hi
    have hmem : m.entries.getD i dfltE ∈ m.entries := by
      rw [getD_eq_getElem _ _ _ hilen]
      exact List.getElem_mem _
    obtain ⟨j, hj, hgd, _⟩ := hinv.placed (m.entries.getD i dfltE) hmem hocce
    have hoccj : occG HEntry.key dfltE t2 j := by
      unfold occG keyAtG
      rw [hgd]
      exact hocce
    have hfind := scan_find HEntry.key dfltE cmp hash hinv.wf hg hj hoccj
    have hkeq : keyAtG HEntry.key dfltE t2 j = keyAtM m i := by
      unfold keyAtG
      rw [hgd]
      rfl
    have hk0 : keyAtM m i ≠ NULLPTR := hocc.1
    simp only [CHashMap_get]
    rw [if_neg hk0, if_neg (show ¬ ceilHalfTriple m.capacity = 0 from by omega)]
    rw [show keyAtM (⟨t2, m.size, ceilHalfTriple m.capacity⟩ : CHashMap) =
      keyAtG HEntry.key dfltE t2 from rfl]
    rw [← hkeq, hfind]
    show GetRes.found (t2.getD j dfltE).value = GetRes.found (valAtM m i)
    rw [hgd]
    rfl

/-- `CHashSet_resize` on any valid table: succeeds, conserves `size`
(given that `size` counts the occupied slots), resets `deleted_count`,
drops all tombstones, and keeps every occupied key containable. -/
theorem CHashSet_resize_conserve (hg : GoodFns cmp hash) (s : CHashSet)
    (hlen : s.entries.length = s.capacity) (hpos : 0 < s.capacity)
    (hsz : s.size = occCount id s.entries)
    (huniq : ∀ i j, i < s.capacity → j < s.capacity → i ≠ j →
      occG id NULLPTR s.entries i → occG id NULLPTR s.entries j →
      cmp (keyAtG id NULLPTR s.entries i)
        (keyAtG id NULLPTR s.entries j) ≠ 0) :
    ∃ s2, CHashSet_resize hash s = some s2 ∧
      s2.size = s.size ∧ s2.capacity = ceilHalfTriple s.capacity ∧
      s2.deleted_count = 0 ∧
      (∀ i, i < s2.capacity → keyAtS s2 i ≠ DELETED) ∧
      (∀ i, i < s.capacity → occG id NULLPTR s.entries i →
        CHashSet_contains cmp hash (some s2) (keyAtS s i) =
          .code CHASHSET_SUCCESS) := by
  have hgrow := ceilHalfTriple_gt s.capacity hpos
  have hcnt : occCount id s.entries < ceilHalfTriple s.capacity := by
    have h1 : occCount id s.entries ≤ s.entries.length :=
      List.countP_le_length _
    omega
  obtain ⟨t2, hrun, hinv⟩ := rehashG_spec id NULLPTR cmp hash hg rfl
    (ceilHalfTriple s.capacity) (by omega) s.entries
    (pairwise_of_uniq id NULLPTR cmp hlen huniq) hcnt
  refine ⟨⟨t2, occCount id s.entries, ceilHalfTriple s.capacity, 0⟩, ?_,
    hsz.symm, rfl, rfl, fun i hi => hinv.wf.noTomb i hi, ?_⟩
  · unfold CHashSet_resize
    rw [hrun]
  · intro i hi hocc
    have hocce : occP (id (s.entries.getD i NULLPTR)) := hocc
    have hilen : i < s.entries.length := by rw [hlen]; exact hi
    have hmem : s.entries.getD i NULLPTR ∈ s.entries := by
      rw [getD_eq_getElem _ _ _ hilen]
      exact List.getElem_mem _
    obtain ⟨j, hj, hgd, _⟩ := hinv.placed (s.entries.getD i NULLPTR) hmem hocce
    have hoccj : occG id NULLPTR t2 j := by
      unfold occG keyAtG
      rw [hgd]
      exact hocce
    have hfind := scan_find id NULLPTR cmp hash hinv.wf hg hj hoccj
    have hkeq : keyAtG id NULLPTR t2 j = keyAtS s i := by
      unfold keyAtG
      rw [hgd]
      rfl
    have hk0 : keyAtS s i ≠ NULLPTR := hocc.1
    simp only [CHashSet_contains]
    rw [if_neg hk0, if_neg (show ¬ ceilHalfTriple s.capacity = 0 from by omega)]
    rw [show keyAtS (⟨t2, occCount id s.entries, ceilHalfTriple s.capacity, 0⟩ :
      CHashSet) = keyAtG id NULLPTR t2 from rfl]
    rw [← hkeq, hfind]

end ResizeConserve

/-! ## Remove-free reachability and its invariant -/

section Reach

variable (cmp : Ptr → Ptr → Int) (hash : Ptr → Nat)

/-- `CHashMap_update` preserves well-formedness (it writes only the value
of a matched occupied slot). -/
theorem CHashMap_update_pres (m m2 : CHashMap) (hw : MapWF cmp hash m)
    (k v : Ptr) (c : Int)
    (h : CHashMap_update cmp hash (some m) k v = .ok c (some m2)) :
    MapWF cmp hash m2 := by
  by_cases hnull : k = NULLPTR ∨ v = NULLPTR
  · simp only [CHashMap_update, if_pos hnull, MRes.ok.injEq,
      Option.some.injEq] at h
    rw [← h.2]
    exact hw
  · simp only [CHashMap_update, if_neg hnull] at h
    by_cases hc0 : m.capacity = 0
    · rw [if_pos hc0] at h
      exact absurd h (by simp)
    · rw [if_neg hc0] at h
      cases hscan : lookScan (keyAtM m) cmp m.capacity k m.capacity
          (hash k % m.capacity) with
      | none =>
        rw [hscan] at h
        exact absurd h (by simp)
      | some oi =>
        rw [hscan] at h
        cases oi with
        | none =>
          simp only [MRes.ok.injEq, Option.some.injEq] at h
          rw [← h.2]
          exact hw
        | some i =>
          simp only [MRes.ok.injEq, Option.some.injEq] at h
          have hcap : 0 < m.capacity := hw.1.pos
          have hi : i < m.capacity := lookScan_lt (keyAtM m) cmp m.capacity k
            hcap m.capacity (hash k % m.capacity) i (Nat.mod_lt _ hcap) hscan
          have hilen : i < m.entries.length := by rw [hw.1.len]; exact hi
          have hkeys : ∀ i2, keyAtG HEntry.key dfltE
              (m.entries.set i ⟨(m.entries.getD i dfltE).key, v⟩) i2 =
              keyAtG HEntry.key dfltE m.entries i2 := by
            intro i2
            by_cases he : i2 = i
            · rw [he, keyAtG_set_self HEntry.key dfltE hilen]
              rfl
            · exact keyAtG_set_ne HEntry.key dfltE (fun hh => he hh.symm)
          rw [← h.2]
          constructor
          · exact TWF.congr_keys HEntry.key dfltE cmp hash hw.1
              (by rw [List.length_set]) hkeys
          · show m.size = occCount HEntry.key
              (m.entries.set i ⟨(m.entries.getD i dfltE).key, v⟩)
            rw [occCount_eq_of_keys HEntry.key dfltE
              (by rw [List.length_set]) hkeys]
            exact hw.2

/-- Map states reachable without `CHashMap_remove` (and without `clear`):
initialisation followed by any sequence of inserts and updates with valid
(non-sentinel) key pointers.  Such histories never create a tombstone. -/
inductive MapReachNR (cmp : Ptr → Ptr → Int) (hash : Ptr → Nat) :
    CHashMap → Prop where
  | init (cap : Nat) : MapReachNR cmp hash (CHashMap_initState cap)
  | insert (m : CHashMap) (k v : Ptr) (c : Int) (m2 : CHashMap) :
      MapReachNR cmp hash m → k ≠ DELETED →
      CHashMap_insert cmp hash (some m) k v = .ok c (some m2) →
      MapReachNR cmp hash m2
  | update (m : CHashMap) (k v : Ptr) (c : Int) (m2 : CHashMap) :
      MapReachNR cmp hash m →
      CHashMap_update cmp hash (some m) k v = .ok c (some m2) →
      MapReachNR cmp hash m2

/-- Set states reachable without `CHashSet_remove` (and without `clear`). -/
inductive SetReachNR (cmp : Ptr → Ptr → Int) (hash : Ptr → Nat) :
    CHashSet → Prop where
  | init (cap : Nat) : SetReachNR cmp hash (CHashSet_initState cap)
  | add (s : CHashSet) (k : Ptr) (c : Int) (s2 : CHashSet) :
      SetReachNR cmp hash s → k ≠ DELETED →
      CHashSet_add cmp hash (some s) k = .ok c (some s2) →
      SetReachNR cmp hash s2

/-- Every remove-free reachable map state is well-formed: in particular it
holds no tombstones and its occupied keys are pairwise `cmp`-distinct. -/
theorem MapReachNR_wf (hg : GoodFns cmp hash) (m : CHashMap)
    (hr : MapReachNR cmp hash m) : MapWF cmp hash m := by
  induction hr with
  | init cap => exact CHashMap_initState_wf cmp hash cap
  | insert m k v c m2 hr hkD hstep ih =>
    by_cases hnull : k = NULLPTR ∨ v = NULLPTR
    · simp only [CHashMap_insert, if_pos hnull, MRes.ok.injEq,
        Option.some.injEq] at hstep
      rw [← hstep.2]
      exact ih
    · have hk0 : k ≠ NULLPTR := fun h => hnull (Or.inl h)
      have hv : v ≠ NULLPTR := fun h => hnull (Or.inr h)
      obtain ⟨m2x, heq, hwf, _⟩ :=
        CHashMap_insert_spec cmp hash hg m ih k v hk0 hkD hv
      rw [heq] at hstep
      simp only [MRes.ok.injEq, Option.some.injEq] at hstep
      rw [← hstep.2]
      exact hwf
  | update m k v c m2 hr hstep ih =>
    exact CHashMap_update_pres cmp hash m m2 ih k v c hstep

/-- Every remove-free reachable set state is well-formed. -/
theorem SetReachNR_wf (hg : GoodFns cmp hash) (s : CHashSet)
    (hr : SetReachNR cmp hash s) : SetWF cmp hash s := by
  induction hr with
  | init cap => exact CHashSet_initState_wf cmp hash cap
  | add s k c s2 hr hkD hstep ih =>
    by_cases hk0 : k = NULLPTR
    · simp only [CHashSet_add, if_pos hk0, MRes.ok.injEq,
        Option.some.injEq] at hstep
      rw [← hstep.2]
      exact ih
    · obtain ⟨s2x, heq, hwf, _⟩ := CHashSet_add_spec cmp hash hg s ih k hk0 hkD
      rw [heq] at hstep
      simp only [MRes.ok.injEq, Option.some.injEq] at hstep
      rw [← hstep.2]
      exact hwf

end Reach

/-! ## The threaded lookups do not mutate -/

section Threaded

variable (cmp : Ptr → Ptr → Int) (hash : Ptr → Nat)

theorem lookLoopMapT_snd (kk : Ptr) :
    ∀ (fuel idx : Nat) (m : CHashMap), (lookLoopMapT cmp kk fuel idx m).2 = m
  | 0, _, m => rfl
  | fuel + 1, idx, m => by
    unfold lookLoopMapT
    by_cases h0 : keyAtM m idx = NULLPTR
    · rw [if_pos h0]
    · rw [if_neg h0]
      by_cases hm : keyAtM m idx ≠ DELETED ∧ cmp (keyAtM m idx) kk = 0
      · rw [if_pos hm]
      · rw [if_neg hm]
        exact lookLoopMapT_snd kk fuel ((idx + 1) % m.capacity) m

theorem lookLoopSetT_snd (kk : Ptr) :
    ∀ (fuel idx : Nat) (s : CHashSet), (lookLoopSetT cmp kk fuel idx s).2 = s
  | 0, _, s => rfl
  | fuel + 1, idx, s => by
    unfold lookLoopSetT
    by_cases h0 : keyAtS s idx = NULLPTR
    · rw [if_pos h0]
    · rw [if_neg h0]
      by_cases hm : keyAtS s idx ≠ DELETED ∧ cmp (keyAtS s idx) kk = 0
      · rw [if_pos hm]
      · rw [if_neg hm]
        exact lookLoopSetT_snd kk fuel ((idx + 1) % s.capacity) s

theorem CHashMap_get_t_snd (m : Option CHashMap) (k : Ptr) :
    (CHashMap_get_t cmp hash m k).2 = m := by
  cases m with
  | none => rfl
  | some m =>
    simp only [CHashMap_get_t]
    by_cases hk : k = NULLPTR
    · rw [if_pos hk]
    · rw [if_neg hk]
      by_cases hc : m.capacity = 0
      · rw [if_pos hc]
      · rw [if_neg hc]
        have hsnd := lookLoopMapT_snd cmp k m.capacity (hash k % m.capacity) m
        cases hp : lookLoopMapT cmp k m.capacity (hash k % m.capacity) m with
        | mk r st =>
          rw [hp] at hsnd
          rcases r with _ | _ | i
          · simpa using hsnd
          · simpa using hsnd
          · simpa using hsnd

theorem CHashSet_contains_t_snd (s : Option CHashSet) (k : Ptr) :
    (CHashSet_contains_t cmp hash s k).2 = s := by
  cases s with
  | none => rfl
  | some s =>
    simp only [CHashSet_contains_t]
    by_cases hk : k = NULLPTR
    · rw [if_pos hk]
    · rw [if_neg hk]
      by_cases hc : s.capacity = 0
      · rw [if_pos hc]
      · rw [if_neg hc]
        have hsnd := lookLoopSetT_snd cmp k s.capacity (hash k % s.capacity) s
        cases hp : lookLoopSetT cmp k s.capacity (hash k % s.capacity) s with
        | mk r st =>
          rw [hp] at hsnd
          rcases r with _ | _ | i
          · simpa using hsnd
          · simpa using hsnd
          · simpa using hsnd

end Threaded

/-! ## Concrete instances

A concrete comparator/hash pair (integer comparison, identity hash) and
the table states produced by short operation sequences at capacity 4,
used by the counterexamples and witnesses below.  All states were checked
against the C control flow slot by slot. -/

/-- Comparator: pointer values compared as integers (`a - b`). -/
def exCmp : Ptr → Ptr → Int := fun a b => (a : Int) - (b : Int)

/-- Hash: identity on the pointer value. -/
def exHash : Ptr → Nat := fun a => a

theorem exGoodFns : GoodFns exCmp exHash := by
  constructor
  · intro a
    unfold exCmp
    omega
  · intro a b h
    unfold exCmp at h ⊢
    omega
  · intro a b h
    unfold exCmp at h
    unfold exHash
    omega

instance occG_decidable {α : Type} (keyOf : α → Ptr) (dflt : α) (t : List α)
    (i : Nat) : Decidable (occG keyOf dflt t i) := by
  unfold occG
  infer_instance

/-- Map after `insert(1,101)` at capacity 4. -/
def mB1 : CHashMap := ⟨[dfltE, ⟨1, 101⟩, dfltE, dfltE], 1, 4⟩

/-- ... then `insert(5,105)` (5 collides with slot 1, probes to slot 2). -/
def mB2 : CHashMap := ⟨[dfltE, ⟨1, 101⟩, ⟨5, 105⟩, dfltE], 2, 4⟩

/-- ... then `remove(1)` (slot 1 becomes a tombstone). -/
def mB3 : CHashMap := ⟨[dfltE, ⟨DELETED, NULLPTR⟩, ⟨5, 105⟩, dfltE], 1, 4⟩

/-- ... then `insert(5,205)`: the probe stops at the tombstone in slot 1
and writes a second entry for key 5. -/
def mB4 : CHashMap := ⟨[dfltE, ⟨5, 205⟩, ⟨5, 105⟩, dfltE], 2, 4⟩

/-- Set after `add(1)` at capacity 4. -/
def sB1 : CHashSet := ⟨[0, 1, 0, 0], 1, 4, 0⟩

/-- ... then `add(5)`. -/
def sB2 : CHashSet := ⟨[0, 1, 5, 0], 2, 4, 0⟩

/-- ... then `remove(1)`. -/
def sB3 : CHashSet := ⟨[0, DELETED, 5, 0], 1, 4, 1⟩

/-- ... then `add(5)`: key 5 is stored twice. -/
def sB4 : CHashSet := ⟨[0, 5, 5, 0], 2, 4, 1⟩

/-- `mB3` after `insert(7, 107)`: key 7 lands in the empty slot 3 while
the tombstone in slot 1 stays. -/
def mB5 : CHashMap := ⟨[dfltE, ⟨DELETED, NULLPTR⟩, ⟨5, 105⟩, ⟨7, 107⟩], 2, 4⟩

/-- `sB3` after `add(7)`: key 7 lands in the empty slot 3 while the
tombstone in slot 1 stays. -/
def sB5 : CHashSet := ⟨[0, DELETED, 5, 7], 2, 4, 1⟩

/-- Map after `insert(1,101); insert(2,102)` at capacity 4. -/
def mC2 : CHashMap := ⟨[dfltE, ⟨1, 101⟩, ⟨2, 102⟩, dfltE], 2, 4⟩

/-- ... then `insert(3,103)`: load factor 0.75. -/
def mC3 : CHashMap := ⟨[dfltE, ⟨1, 101⟩, ⟨2, 102⟩, ⟨3, 103⟩], 3, 4⟩

/-- ... then `insert(4,104)`: no resize (0.75 is not > 0.75); load 1.0. -/
def mC4 : CHashMap := ⟨[⟨4, 104⟩, ⟨1, 101⟩, ⟨2, 102⟩, ⟨3, 103⟩], 4, 4⟩

/-- Map after `insert 1,2,3; remove 1` at capacity 4. -/
def mD4 : CHashMap := ⟨[dfltE, ⟨DELETED, NULLPTR⟩, ⟨2, 102⟩, ⟨3, 103⟩], 2, 4⟩

/-- ... then `insert(4,104)`: every slot now occupied or tombstoned. -/
def mD5 : CHashMap := ⟨[⟨4, 104⟩, ⟨DELETED, NULLPTR⟩, ⟨2, 102⟩, ⟨3, 103⟩], 3, 4⟩

/-- Set after `add 1,2,3` at capacity 4. -/
def sC3 : CHashSet := ⟨[0, 1, 2, 3], 3, 4, 0⟩

/-- ... then `remove(1)`. -/
def sD4 : CHashSet := ⟨[0, DELETED, 2, 3], 2, 4, 1⟩

/-- ... then `add(4)`: every slot now occupied or tombstoned. -/
def sD5 : CHashSet := ⟨[4, DELETED, 2, 3], 3, 4, 1⟩

/-- `mB2` is reachable without remove. -/
theorem mB2_reach : MapReachNR exCmp exHash mB2 :=
  MapReachNR.insert mB1 5 105 CHASHMAP_SUCCESS mB2
    (MapReachNR.insert (CHashMap_initState 4) 1 101 CHASHMAP_SUCCESS mB1
      (MapReachNR.init 4) (by decide) (by decide))
    (by decide) (by decide)

/-- `sB2` is reachable without remove. -/
theorem sB2_reach : SetReachNR exCmp exHash sB2 :=
  SetReachNR.add sB1 5 CHASHSET_SUCCESS sB2
    (SetReachNR.add (CHashSet_initState 4) 1 CHASHSET_SUCCESS sB1
      (SetReachNR.init 4) (by decide) (by decide))
    (by decide) (by decide)

/-! ## Claims -/

/-- C1, counterexample: the claim fails on a reachable state containing a
tombstone.  At capacity 4: `insert(1,101); insert(5,105); remove(1)`
leaves key 5 present (`get 5 = 105`, `size = 1`); a second
`insert(5,205)` then stops at the tombstone in slot 1 and creates a
second entry for key 5, incrementing `size` to 2 — not the no-size-change
update the claim states.  The set shows the same: after `add 1; add 5;
remove 1`, a duplicate `add 5` grows `size` from 1 to 2. -/
theorem C1_counterexample :
    CHashMap_insert exCmp exHash (some (CHashMap_initState 4)) 1 101 =
      .ok CHASHMAP_SUCCESS (some mB1) ∧
    CHashMap_insert exCmp exHash (some mB1) 5 105 =
      .ok CHASHMAP_SUCCESS (some mB2) ∧
    CHashMap_remove exCmp exHash (some mB2) 1 =
      .ok CHASHMAP_SUCCESS (some mB3) ∧
    CHashMap_get exCmp exHash (some mB3) 5 = .found 105 ∧
    mB3.size = 1 ∧
    CHashMap_insert exCmp exHash (some mB3) 5 205 =
      .ok CHASHMAP_SUCCESS (some mB4) ∧
    mB4.size = 2 ∧
    CHashSet_add exCmp exHash (some (CHashSet_initState 4)) 1 =
      .ok CHASHSET_SUCCESS (some sB1) ∧
    CHashSet_add exCmp exHash (some sB1) 5 = .ok CHASHSET_SUCCESS (some sB2) ∧
    CHashSet_remove exCmp exHash (some sB2) 1 =
      .ok CHASHSET_SUCCESS (some sB3) ∧
    CHashSet_contains exCmp exHash (some sB3) 5 = .code CHASHSET_SUCCESS ∧
    sB3.size = 1 ∧
    CHashSet_add exCmp exHash (some sB3) 5 = .ok CHASHSET_SUCCESS (some sB4) ∧
    sB4.size = 2 := by
  decide

/-- C1, amended: in every table state reachable without `remove` (hence
holding no tombstones), under the comparator/hash contract, a second
insert of a present key with a different value returns success, leaves
`size` unchanged and a subsequent `CHashMap_get` returns the second
value; likewise a duplicate `CHashSet_add` is a success that leaves
`size` unchanged and the key containable. -/
theorem C1_duplicate_insert :
    ∀ (cmp : Ptr → Ptr → Int) (hash : Ptr → Nat), GoodFns cmp hash →
      (∀ (m : CHashMap) (k v2 : Ptr), MapReachNR cmp hash m →
        k ≠ NULLPTR → k ≠ DELETED → v2 ≠ NULLPTR →
        memG HEntry.key dfltE cmp m.entries m.capacity k →
        ∃ m2, CHashMap_insert cmp hash (some m) k v2 =
            .ok CHASHMAP_SUCCESS (some m2) ∧
          m2.size = m.size ∧
          CHashMap_get cmp hash (some m2) k = .found v2) ∧
      (∀ (s : CHashSet) (k : Ptr), SetReachNR cmp hash s →
        k ≠ NULLPTR → k ≠ DELETED →
        memG id NULLPTR cmp s.entries s.capacity k →
        ∃ s2, CHashSet_add cmp hash (some s) k =
            .ok CHASHSET_SUCCESS (some s2) ∧
          s2.size = s.size ∧
          CHashSet_contains cmp hash (some s2) k = .code CHASHSET_SUCCESS) := by
  intro cmp hash hg
  constructor
  · intro m k v2 hr hk0 hkD hv2 hmem
    have hw := MapReachNR_wf cmp hash hg m hr
    obtain ⟨m2, heq, _, _, hmemc, _⟩ :=
      CHashMap_insert_spec cmp hash hg m hw k v2 hk0 hkD hv2
    obtain ⟨hs, hget⟩ := hmemc hmem
    exact ⟨m2, heq, hs, hget⟩
  · intro s k hr hk0 hkD hmem
    have hw := SetReachNR_wf cmp hash hg s hr
    obtain ⟨s2, heq, _, _, hmemc, _⟩ :=
      CHashSet_add_spec cmp hash hg s hw k hk0 hkD
    obtain ⟨hs, hcont⟩ := hmemc hmem
    exact ⟨s2, heq, hs, hcont⟩

/-- C1, witness: the amended theorem applied to the concrete remove-free
states `mB2` / `sB2`, where key 5 is present. -/
theorem C1_witness :
    (∃ m2, CHashMap_insert exCmp exHash (some mB2) 5 205 =
        .ok CHASHMAP_SUCCESS (some m2) ∧
      m2.size = mB2.size ∧
      CHashMap_get exCmp exHash (some m2) 5 = .found 205) ∧
    (∃ s2, CHashSet_add exCmp exHash (some sB2) 5 =
        .ok CHASHSET_SUCCESS (some s2) ∧
      s2.size = sB2.size ∧
      CHashSet_contains exCmp exHash (some s2) 5 = .code CHASHSET_SUCCESS) :=
  ⟨(C1_duplicate_insert exCmp exHash exGoodFns).1 mB2 5 205 mB2_reach
      (by decide) (by decide) (by decide) ⟨2, by decide, by decide, by decide⟩,
    (C1_duplicate_insert exCmp exHash exGoodFns).2 sB2 5 sB2_reach
      (by decide) (by decide) ⟨2, by decide, by decide, by decide⟩⟩

/-- C2, counterexample: the fourth insert into a capacity-4 map returns
success with no resize, reaching `size = 4`, `capacity = 4`: the claimed
post-insert bound `size / capacity ≤ 0.75` is violated (load factor 1.0).
The check `load_factor > 0.75` runs before the insert, when the load is
still exactly 0.75. -/
theorem C2_counterexample :
    CHashMap_insert exCmp exHash (some mC3) 4 104 =
      .ok CHASHMAP_SUCCESS (some mC4) ∧
    mC4.size = 4 ∧ mC4.capacity = 4 ∧
    ¬ (4 * mC4.size ≤ 3 * mC4.capacity) ∧
    CHashMap_load_factor (some mC4) = some 1 ∧ ¬ ((1 : ℚ) ≤ 3 / 4) := by
  refine ⟨by decide, by decide, by decide, by decide, ?_, by norm_num⟩
  show fdiv ((4 : Nat) : ℚ) ((4 : Nat) : ℚ) = some 1
  rw [fdiv, if_neg (by norm_num)]
  norm_num

/-- C2, amended: after every insert/add that returns `SUCCESS` — on any
map whose `size` is at most its `capacity`, and on any set whose slot
array holds `capacity` entries (both true of every reachable table,
tombstones included) — `4 * size ≤ 3 * capacity + 4`, i.e.
`size ≤ 0.75 * capacity + 1`: the 0.75 bound holds before the probe
(after any triggered resize) and the new entry can exceed it by exactly
one entry. -/
theorem C2_insert_load_bound :
    ∀ (cmp : Ptr → Ptr → Int) (hash : Ptr → Nat) (m m2 : CHashMap)
      (s s2 : CHashSet) (k v k2 : Ptr),
      (m.size ≤ m.capacity →
        CHashMap_insert cmp hash (some m) k v =
          .ok CHASHMAP_SUCCESS (some m2) →
        4 * m2.size ≤ 3 * m2.capacity + 4) ∧
      (s.entries.length = s.capacity →
        CHashSet_add cmp hash (some s) k2 = .ok CHASHSET_SUCCESS (some s2) →
        4 * s2.size ≤ 3 * s2.capacity + 4) :=
  fun cmp hash m m2 s s2 k v k2 =>
    ⟨fun hsz h => CHashMap_insert_okBound cmp hash m m2 hsz k v h,
      fun hlen h => CHashSet_add_okBound cmp hash s s2 hlen k2 h⟩

/-- C2, witness: the amended bound at an insert into the tombstoned
post-remove tables `mB3` and `sB3`. -/
theorem C2_witness :
    mB3.size ≤ mB3.capacity ∧ sB3.entries.length = sB3.capacity ∧
    (4 * mB5.size ≤ 3 * mB5.capacity + 4) ∧
    (4 * sB5.size ≤ 3 * sB5.capacity + 4) :=
  ⟨by decide, by decide,
    (C2_insert_load_bound exCmp exHash mB3 mB5 sB3 sB5 7 107 7).1
      (by decide) (by decide),
    (C2_insert_load_bound exCmp exHash mB3 mB5 sB3 sB5 7 107 7).2
      (by decide) (by decide)⟩

/-- C3, counterexample: after `insert(1,101); insert(5,105); remove(1);
insert(5,205)` (a sequence of insert and remove operations), slots 1 and
2 are both Occupied and hold keys that compare equal under `cmp` (both
are 5): keys are not unique among Occupied slots in every reachable
state. -/
theorem C3_counterexample :
    CHashMap_insert exCmp exHash (some (CHashMap_initState 4)) 1 101 =
      .ok CHASHMAP_SUCCESS (some mB1) ∧
    CHashMap_insert exCmp exHash (some mB1) 5 105 =
      .ok CHASHMAP_SUCCESS (some mB2) ∧
    CHashMap_remove exCmp exHash (some mB2) 1 =
      .ok CHASHMAP_SUCCESS (some mB3) ∧
    CHashMap_insert exCmp exHash (some mB3) 5 205 =
      .ok CHASHMAP_SUCCESS (some mB4) ∧
    (1 : Nat) ≠ 2 ∧ 1 < mB4.capacity ∧ 2 < mB4.capacity ∧
    occG HEntry.key dfltE mB4.entries 1 ∧ occG HEntry.key dfltE mB4.entries 2 ∧
    exCmp (keyAtM mB4 1) (keyAtM mB4 2) = 0 := by
  decide

/-- C3, amended: in every table state reachable by init, insert/add and
update (with their internal resizes) but no remove, under the
comparator/hash contract, no two Occupied slots hold keys that compare
equal under `cmp`. -/
theorem C3_keys_unique_noremove :
    ∀ (cmp : Ptr → Ptr → Int) (hash : Ptr → Nat), GoodFns cmp hash →
      (∀ m : CHashMap, MapReachNR cmp hash m →
        ∀ i j, i < m.capacity → j < m.capacity → i ≠ j →
          occG HEntry.key dfltE m.entries i →
          occG HEntry.key dfltE m.entries j →
          cmp (keyAtM m i) (keyAtM m j) ≠ 0) ∧
      (∀ s : CHashSet, SetReachNR cmp hash s →
        ∀ i j, i < s.capacity → j < s.capacity → i ≠ j →
          occG id NULLPTR s.entries i → occG id NULLPTR s.entries j →
          cmp (keyAtS s i) (keyAtS s j) ≠ 0) := by
  intro cmp hash hg
  constructor
  · intro m hr i j hi hj hne hoi hoj
    exact (MapReachNR_wf cmp hash hg m hr).1.uniq i j hi hj hne hoi hoj
  · intro s hr i j hi hj hne hoi hoj
    exact (SetReachNR_wf cmp hash hg s hr).1.uniq i j hi hj hne hoi hoj

/-- C3, witness: uniqueness at the concrete remove-free states. -/
theorem C3_witness :
    exCmp (keyAtM mB2 1) (keyAtM mB2 2) ≠ 0 ∧
    exCmp (keyAtS sB2 1) (keyAtS sB2 2) ≠ 0 :=
  ⟨(C3_keys_unique_noremove exCmp exHash exGoodFns).1 mB2 mB2_reach 1 2
      (by decide) (by decide) (by decide) (by decide) (by decide),
    (C3_keys_unique_noremove exCmp exHash exGoodFns).2 sB2 sB2_reach 1 2
      (by decide) (by decide) (by decide) (by decide) (by decide)⟩

/-- C4 (code bug): a reachable table can consist solely of Occupied and
Tombstone slots (capacity 4: `insert 1,2,3; remove 1; insert 4`); the
lookup loop of `CHashMap_get` / `CHashSet_contains` for an absent key
then never sees an Empty slot and cycles forever — operations are not
bounded by the table size.  The final conjuncts show the lookup-side scan
returns no result for every fuel. -/
theorem C4_lookup_unbounded :
    CHashMap_insert exCmp exHash (some (CHashMap_initState 4)) 1 101 =
      .ok CHASHMAP_SUCCESS (some mB1) ∧
    CHashMap_insert exCmp exHash (some mB1) 2 102 =
      .ok CHASHMAP_SUCCESS (some mC2) ∧
    CHashMap_insert exCmp exHash (some mC2) 3 103 =
      .ok CHASHMAP_SUCCESS (some mC3) ∧
    CHashMap_remove exCmp exHash (some mC3) 1 =
      .ok CHASHMAP_SUCCESS (some mD4) ∧
    CHashMap_insert exCmp exHash (some mD4) 4 104 =
      .ok CHASHMAP_SUCCESS (some mD5) ∧
    (∀ i, i < 4 → keyAtM mD5 i ≠ NULLPTR) ∧
    CHashMap_get exCmp exHash (some mD5) 5 = .div ∧
    (∀ fuel, lookScan (keyAtM mD5) exCmp 4 5 fuel 1 = none) ∧
    CHashSet_add exCmp exHash (some (CHashSet_initState 4)) 1 =
      .ok CHASHSET_SUCCESS (some sB1) ∧
    CHashSet_add exCmp exHash (some sB1) 2 = .ok CHASHSET_SUCCESS
      (some (⟨[0, 1, 2, 0], 2, 4, 0⟩ : CHashSet)) ∧
    CHashSet_add exCmp exHash (some (⟨[0, 1, 2, 0], 2, 4, 0⟩ : CHashSet)) 3 =
      .ok CHASHSET_SUCCESS (some sC3) ∧
    CHashSet_remove exCmp exHash (some sC3) 1 =
      .ok CHASHSET_SUCCESS (some sD4) ∧
    CHashSet_add exCmp exHash (some sD4) 4 = .ok CHASHSET_SUCCESS (some sD5) ∧
    CHashSet_contains exCmp exHash (some sD5) 5 = .div ∧
    (∀ fuel, lookScan (keyAtS sD5) exCmp 4 5 fuel 1 = none) := by
  refine ⟨by decide, by decide, by decide, by decide, by decide, by decide,
    by decide, ?_, by decide, by decide, by decide, by decide, by decide,
    by decide, ?_⟩
  · intro fuel
    exact lookScan_none (keyAtM mD5) exCmp 4 5 (by decide) fuel 1 (by decide)
  · intro fuel
    exact lookScan_none (keyAtS sD5) exCmp 4 5 (by decide) fuel 1 (by decide)

/-- C5: resize conserves entries.  On any valid table (array length equal
to capacity, positive capacity, occupied keys pairwise `cmp`-distinct —
tombstones allowed), with a hash deterministic on `cmp`-equal keys:
`CHashMap_resize` succeeds, keeps `size` and the occupied count, drops
every tombstone, and every previously Occupied key is still retrievable
by `CHashMap_get` with its stored value.  `CHashSet_resize` additionally
resets `deleted_count` to 0 and recomputes `size` to the same value,
with every occupied key still containable. -/
theorem C5_resize_conserves :
    ∀ (cmp : Ptr → Ptr → Int) (hash : Ptr → Nat), GoodFns cmp hash →
      (∀ m : CHashMap, m.entries.length = m.capacity → 0 < m.capacity →
        (∀ i j, i < m.capacity → j < m.capacity → i ≠ j →
          occG HEntry.key dfltE m.entries i →
          occG HEntry.key dfltE m.entries j →
          cmp (keyAtG HEntry.key dfltE m.entries i)
            (keyAtG HEntry.key dfltE m.entries j) ≠ 0) →
        ∃ m2, CHashMap_resize hash m = some m2 ∧
          m2.size = m.size ∧ m2.capacity = ceilHalfTriple m.capacity ∧
          occCount HEntry.key m2.entries = occCount HEntry.key m.entries ∧
          (∀ i, i < m2.capacity → keyAtM m2 i ≠ DELETED) ∧
          (∀ i, i < m.capacity → occG HEntry.key dfltE m.entries i →
            CHashMap_get cmp hash (some m2) (keyAtM m i) =
              .found (valAtM m i))) ∧
      (∀ s : CHashSet, s.entries.length = s.capacity → 0 < s.capacity →
        s.size = occCount id s.entries →
        (∀ i j, i < s.capacity → j < s.capacity → i ≠ j →
          occG id NULLPTR s.entries i → occG id NULLPTR s.entries j →
          cmp (keyAtG id NULLPTR s.entries i)
            (keyAtG id NULLPTR s.entries j) ≠ 0) →
        ∃ s2, CHashSet_resize hash s = some s2 ∧
          s2.size = s.size ∧ s2.capacity = ceilHalfTriple s.capacity ∧
          s2.deleted_count = 0 ∧
          (∀ i, i < s2.capacity → keyAtS s2 i ≠ DELETED) ∧
          (∀ i, i < s.capacity → occG id NULLPTR s.entries i →
            CHashSet_contains cmp hash (some s2) (keyAtS s i) =
              .code CHASHSET_SUCCESS)) :=
  fun cmp hash hg =>
    ⟨fun m hlen hpos huniq =>
        CHashMap_resize_conserve cmp hash hg m hlen hpos huniq,
      fun s hlen hpos hsz huniq =>
        CHashSet_resize_conserve cmp hash hg s hlen hpos hsz huniq⟩

/-- C5, witness: resizing the concrete tombstone-holding states `mB3` and
`sB3`. -/
theorem C5_witness :
    (∃ m2, CHashMap_resize exHash mB3 = some m2 ∧
      m2.size = mB3.size ∧ m2.capacity = ceilHalfTriple mB3.capacity ∧
      occCount HEntry.key m2.entries = occCount HEntry.key mB3.entries ∧
      (∀ i, i < m2.capacity → keyAtM m2 i ≠ DELETED) ∧
      (∀ i, i < mB3.capacity → occG HEntry.key dfltE mB3.entries i →
        CHashMap_get exCmp exHash (some m2) (keyAtM mB3 i) =
          .found (valAtM mB3 i))) ∧
    (∃ s2, CHashSet_resize exHash sB3 = some s2 ∧
      s2.size = sB3.size ∧ s2.capacity = ceilHalfTriple sB3.capacity ∧
      s2.deleted_count = 0 ∧
      (∀ i, i < s2.capacity → keyAtS s2 i ≠ DELETED) ∧
      (∀ i, i < sB3.capacity → occG id NULLPTR sB3.entries i →
        CHashSet_contains exCmp exHash (some s2) (keyAtS sB3 i) =
          .code CHASHSET_SUCCESS)) :=
  ⟨(C5_resize_conserves exCmp exHash exGoodFns).1 mB3 (by decide) (by decide)
      (by
        have h : ∀ i, i < 4 → ∀ j, j < 4 → ¬ (i ≠ j ∧
            occG HEntry.key dfltE mB3.entries i ∧
            occG HEntry.key dfltE mB3.entries j ∧
            exCmp (keyAtG HEntry.key dfltE mB3.entries i)
              (keyAtG HEntry.key dfltE mB3.entries j) = 0) := by decide
        intro i j hi hj hne ho1 ho2 hc
        exact h i hi j hj ⟨hne, ho1, ho2, hc⟩),
    (C5_resize_conserves exCmp exHash exGoodFns).2 sB3 (by decide) (by decide)
      (by decide)
      (by
        have h : ∀ i, i < 4 → ∀ j, j < 4 → ¬ (i ≠ j ∧
            occG id NULLPTR sB3.entries i ∧ occG id NULLPTR sB3.entries j ∧
            exCmp (keyAtG id NULLPTR sB3.entries i)
              (keyAtG id NULLPTR sB3.entries j) = 0) := by decide
        intro i j hi hj hne ho1 ho2 hc
        exact h i hi j hj ⟨hne, ho1, ho2, hc⟩)⟩

/-- C6, counterexample: `CHashMap_insert` with a null map returns
`CHASHMAP_NULL_VAL` (−3), the null-key/value code — not the distinct
null-map code `CHASHMAP_NULL_MAP` (−2) the claim requires. -/
theorem C6_counterexample :
    CHashMap_insert exCmp exHash none 1 2 = .ok CHASHMAP_NULL_VAL none ∧
    CHASHMAP_NULL_VAL ≠ CHASHMAP_NULL_MAP :=
  ⟨rfl, by decide⟩

/-- C6, amended: the set operations report the distinct codes
`CHASHSET_NULL_SET` and `CHASHSET_NULL_KEY`, but the map mutating
operations return the single code `CHASHMAP_NULL_VAL` for any null
argument — a null map is conflated with a null key/value — and
`CHashMap_get` returns the null pointer for a null map or key. -/
theorem C6_null_args :
    ∀ (cmp : Ptr → Ptr → Int) (hash : Ptr → Nat) (m : CHashMap)
      (s : CHashSet) (k v : Ptr),
      CHashMap_insert cmp hash none k v = .ok CHASHMAP_NULL_VAL none ∧
      CHashMap_insert cmp hash (some m) NULLPTR v =
        .ok CHASHMAP_NULL_VAL (some m) ∧
      CHashMap_insert cmp hash (some m) k NULLPTR =
        .ok CHASHMAP_NULL_VAL (some m) ∧
      CHashMap_remove cmp hash none k = .ok CHASHMAP_NULL_VAL none ∧
      CHashMap_update cmp hash none k v = .ok CHASHMAP_NULL_VAL none ∧
      CHashMap_get cmp hash none k = .nullret ∧
      CHashMap_get cmp hash (some m) NULLPTR = .nullret ∧
      CHashSet_add cmp hash none k = .ok CHASHSET_NULL_SET none ∧
      CHashSet_add cmp hash (some s) NULLPTR =
        .ok CHASHSET_NULL_KEY (some s) ∧
      CHashSet_contains cmp hash none k = .code CHASHSET_NULL_SET ∧
      CHashSet_contains cmp hash (some s) NULLPTR =
        .code CHASHSET_NULL_KEY ∧
      CHASHSET_NULL_SET ≠ CHASHSET_NULL_KEY :=
  fun cmp hash m s k v =>
    ⟨rfl, rfl, by simp [CHashMap_insert], rfl, rfl, rfl, rfl, rfl, rfl, rfl,
      rfl, by decide⟩

/-- C7, counterexample: after `clear` the capacity is 0, and
`load_factor` on that valid (non-null) table computes `0.0 / 0.0`, which
is NaN (modelled `none`) — not the 0.0 the claim states for
`capacity = 0`. -/
theorem C7_counterexample :
    CHashMap_clear (some mB1) =
      .ok CHASHMAP_SUCCESS (some (⟨[], 0, 0⟩ : CHashMap)) ∧
    CHashMap_load_factor (some (⟨[], 0, 0⟩ : CHashMap)) = none ∧
    (none : Option ℚ) ≠ some 0 ∧
    CHashSet_load_factor (some (⟨[], 0, 0, 0⟩ : CHashSet)) = none := by
  refine ⟨by decide, ?_, by simp, ?_⟩
  · show fdiv ((0 : Nat) : ℚ) ((0 : Nat) : ℚ) = none
    rw [fdiv]
    norm_num
  · show fdiv ((0 : Nat) : ℚ) ((0 : Nat) : ℚ) = none
    rw [fdiv]
    norm_num

/-- C7, amended: `load_factor` returns `size / capacity` as an exact
ratio and 0.0 for a null table pointer; when `capacity = 0` (a cleared
table) the division is not finite (NaN for size 0), not 0.0. -/
theorem C7_load_factor :
    ∀ (m : CHashMap) (s : CHashSet),
      CHashMap_load_factor none = some 0 ∧
      CHashSet_load_factor none = some 0 ∧
      (m.capacity ≠ 0 → CHashMap_load_factor (some m) =
        some ((m.size : ℚ) / (m.capacity : ℚ))) ∧
      (m.capacity = 0 → CHashMap_load_factor (some m) = none) ∧
      (s.capacity ≠ 0 → CHashSet_load_factor (some s) =
        some ((s.size : ℚ) / (s.capacity : ℚ))) ∧
      (s.capacity = 0 → CHashSet_load_factor (some s) = none) := by
  intro m s
  refine ⟨rfl, rfl, ?_, ?_, ?_, ?_⟩
  · intro hc
    show fdiv (m.size : ℚ) (m.capacity : ℚ) = _
    rw [fdiv, if_neg (by exact_mod_cast hc)]
  · intro hc
    show fdiv (m.size : ℚ) (m.capacity : ℚ) = none
    rw [fdiv, if_pos (by exact_mod_cast hc)]
  · intro hc
    show fdiv (s.size : ℚ) (s.capacity : ℚ) = _
    rw [fdiv, if_neg (by exact_mod_cast hc)]
  · intro hc
    show fdiv (s.size : ℚ) (s.capacity : ℚ) = none
    rw [fdiv, if_pos (by exact_mod_cast hc)]

/-- C7, witness: the amended statement at concrete tables. -/
theorem C7_witness :
    CHashMap_load_factor (some (⟨[], 3, 4⟩ : CHashMap)) =
      some (((3 : Nat) : ℚ) / ((4 : Nat) : ℚ)) ∧
    CHashMap_load_factor (some (⟨[], 0, 0⟩ : CHashMap)) = none ∧
    CHashSet_load_factor (some (⟨[], 1, 2, 0⟩ : CHashSet)) =
      some (((1 : Nat) : ℚ) / ((2 : Nat) : ℚ)) ∧
    CHashSet_load_factor (some (⟨[], 0, 0, 0⟩ : CHashSet)) = none :=
  ⟨(C7_load_factor ⟨[], 3, 4⟩ ⟨[], 1, 2, 0⟩).2.2.1 (by decide),
    (C7_load_factor ⟨[], 0, 0⟩ ⟨[], 0, 0, 0⟩).2.2.2.1 rfl,
    (C7_load_factor ⟨[], 3, 4⟩ ⟨[], 1, 2, 0⟩).2.2.2.2.1 (by decide),
    (C7_load_factor ⟨[], 0, 0⟩ ⟨[], 0, 0, 0⟩).2.2.2.2.2 rfl⟩

/-- C8 (code bug): `clear` does reset `size`, `deleted_count` and
`capacity` to 0, but a subsequent lookup on the cleared table computes
`hash(key) % 0` (and dereferences the freed slot array): undefined
behaviour, not the NotFound outcome the claim states. -/
theorem C8_clear_then_lookup_ub :
    CHashMap_clear (some mB1) =
      .ok CHASHMAP_SUCCESS (some (⟨[], 0, 0⟩ : CHashMap)) ∧
    (⟨[], 0, 0⟩ : CHashMap).size = 0 ∧
    (⟨[], 0, 0⟩ : CHashMap).capacity = 0 ∧
    CHashMap_get exCmp exHash (some (⟨[], 0, 0⟩ : CHashMap)) 1 = .ub ∧
    CHashSet_clear (some sB1) =
      .ok CHASHSET_SUCCESS (some (⟨[], 0, 0, 0⟩ : CHashSet)) ∧
    (⟨[], 0, 0, 0⟩ : CHashSet).size = 0 ∧
    (⟨[], 0, 0, 0⟩ : CHashSet).deleted_count = 0 ∧
    (⟨[], 0, 0, 0⟩ : CHashSet).capacity = 0 ∧
    CHashSet_contains exCmp exHash (some (⟨[], 0, 0, 0⟩ : CHashSet)) 1 =
      .ub := by
  decide

/-- C9: `CHashMap_get` and `CHashSet_contains` never modify the table: in
the state-threaded translation (state carried through every loop
iteration) the table returned after the call equals the input table —
same `size`, `capacity`, `deleted_count` and slot array. -/
theorem C9_lookup_pure :
    ∀ (cmp : Ptr → Ptr → Int) (hash : Ptr → Nat) (m : Option CHashMap)
      (s : Option CHashSet) (k : Ptr),
      (CHashMap_get_t cmp hash m k).2 = m ∧
      (CHashSet_contains_t cmp hash s k).2 = s :=
  fun cmp hash m s k =>
    ⟨CHashMap_get_t_snd cmp hash m k, CHashSet_contains_t_snd cmp hash s k⟩

/-- C10: `CHashMap_free` nulls the caller's pointer, so a second free
through the same variable returns `CHASHMAP_NULL_MAP`; `CHashSet_free`
also nulls `*set` but guards only the outer pointer, so a second free
dereferences the nulled `*set` — undefined behaviour. -/
theorem C10_free_nulls_pointer :
    (∀ m : CHashMap, CHashMap_free (some (some m)) =
      .ok CHASHMAP_SUCCESS (some none)) ∧
    CHashMap_free (some none) = .ok CHASHMAP_NULL_MAP (some none) ∧
    CHashMap_free none = .ok CHASHMAP_NULL_MAP none ∧
    (∀ s : CHashSet, CHashSet_free (some (some s)) =
      .ok CHASHSET_SUCCESS (some none)) ∧
    CHashSet_free (some none) = .ub ∧
    CHashSet_free none = .ok CHASHSET_NULL_SET none :=
  ⟨fun _ => rfl, rfl, rfl, fun _ => rfl, rfl, rfl⟩

end CStd
